import Mathlib

/-!
Verification of the mailcoil message-assembly core (`src/mailcoil/Email.py`).

The Python source is shallowly embedded: each class becomes a structure,
each method a pure function.  Byte strings are modelled as `List Nat`,
text strings as Lean `String` (with character-level work done on
`List Char`, the underlying representation), raised exceptions as
`Except MailError`.  Methods that in Python could mutate `self` are
translated in state-passing style, returning the post-state `Email`
explicitly, so that absence of mutation is a provable statement rather
than a modelling assumption.

External collaborators of the repository (the Python standard library's
`email.utils` address functions, `textwrap.wrap`, `time.time`,
`os.urandom`) are modelled by executable Lean functions; each such model
carries a doc comment stating what it models and which behaviours of the
library function are covered.
-/

/-- Error kinds of the mailcoil core.  `noRecipient` and `noBody` model the
repository's `NoRecipientException` and `NoBodyException`; `malformedAddress`
models the `ValueError` raised by the tuple unpacking in `MailAddress.parse`
when `email.utils.getaddresses` does not return exactly one pair (the spec
calls this error kind `MalformedAddressError`). -/
inductive MailError where
  | noRecipient
  | noBody
  | malformedAddress
deriving DecidableEq, Repr

/-- A MIME body payload.  `Payload.text s` stands for the UTF-8 encoding of
`s` (the source calls `text.encode("utf-8")`; UTF-8 encoding is injective, so
keeping the string is lossless); `Payload.bytes b` is a raw byte sequence. -/
inductive Payload where
  | text (s : String)
  | bytes (b : List Nat)
deriving DecidableEq, Repr

/-- A MIME entity, the model of the `email.mime` message objects the source
builds.  A `leaf` (model of `MIMENonMultipart` via the source's `MIMEGeneric`)
carries its content type, its content-type parameters, its
`Content-Transfer-Encoding` value `cte` (set by the `encoder` argument:
`"base64"` or `"quoted-printable"`), its further headers in insertion order,
and a payload.  A `multipart` (model of `MIMEMultipart`) carries its subtype,
headers and child entities in attachment order. -/
inductive MimeEntity where
  | leaf (maintype subtype : String) (params : List (String × String))
      (cte : String) (headers : List (String × String)) (payload : Payload)
  | multipart (subtype : String) (headers : List (String × String))
      (parts : List MimeEntity)

/-- Appending a header, the model of `msg["Name"] = value`, which in the
`email` library appends to the header list. -/
def MimeEntity.addHeader : MimeEntity → String → String → MimeEntity
  | .leaf mt st ps cte hs pl, k, v => .leaf mt st ps cte (hs ++ [(k, v)]) pl
  | .multipart st hs parts, k, v => .multipart st (hs ++ [(k, v)]) parts

/-- The header list of an entity (excluding the structured content-type and
transfer-encoding fields, which the model keeps in dedicated fields). -/
def MimeEntity.headersOf : MimeEntity → List (String × String)
  | .leaf _ _ _ _ hs _ => hs
  | .multipart _ hs _ => hs

/-- The `MailAddress` dataclass: a mailbox and an optional display name. -/
structure MailAddress where
  mail : String
  name : Option String := none
deriving DecidableEq, Repr

/-- The characters that force `email.utils.formataddr` to quote a display
name (its `specialsre` character class). -/
def formataddrSpecials : List Char :=
  ['[', ']', '\\', '(', ')', '<', '>', '@', ',', ':', ';', '"', '.']

/-- Backslash-escaping of `\` and `"` in a quoted display name, the model of
`formataddr`'s `escapesre` substitution. -/
def escapeName : List Char → List Char
  | [] => []
  | c :: rest =>
    if c = '\\' ∨ c = '"' then '\\' :: c :: escapeName rest
    else c :: escapeName rest

/-- Whether a string encodes to ASCII (`str.encode('ascii')` succeeds
exactly when every code point is below 128). -/
def isAsciiStr (s : String) : Bool := s.data.all (fun c => c.toNat < 128)

/-- UTF-8 encoding of one unicode scalar value (`str.encode('utf-8')`, per
character). -/
def utf8EncodeChar (c : Char) : List Nat :=
  let n := c.toNat
  if n < 0x80 then [n]
  else if n < 0x800 then [0xC0 + n / 0x40, 0x80 + n % 0x40]
  else if n < 0x10000 then
    [0xE0 + n / 0x1000, 0x80 + (n / 0x40) % 0x40, 0x80 + n % 0x40]
  else
    [0xF0 + n / 0x40000, 0x80 + (n / 0x1000) % 0x40,
     0x80 + (n / 0x40) % 0x40, 0x80 + n % 0x40]

/-- `str.encode('utf-8')`. -/
def utf8Bytes (s : String) : List Nat := (s.data.map utf8EncodeChar).flatten

/-- The bytes that `email.quoprimime`'s header map leaves unencoded:
`-!*+/`, ASCII letters and digits. -/
def isQuopriHeaderSafe (b : Nat) : Bool :=
  (0x61 ≤ b && b ≤ 0x7a) || (0x41 ≤ b && b ≤ 0x5a) ||
    (0x30 ≤ b && b ≤ 0x39) || b == 0x2d || b == 0x21 || b == 0x2a ||
    b == 0x2b || b == 0x2f

/-- Uppercase hexadecimal digit, as in the map's `=%02X` entries. -/
def hexDigitUpper (n : Nat) : Char :=
  if n < 10 then Char.ofNat (48 + n) else Char.ofNat (55 + n)

/-- One byte under `_QUOPRI_HEADER_MAP`: a safe byte stands for itself, a
space becomes an underscore, anything else becomes `=XX`. -/
def quopriHeaderByte (b : Nat) : List Char :=
  if b = 32 then ['_']
  else if isQuopriHeaderSafe b then [Char.ofNat b]
  else ['=', hexDigitUpper ((b / 16) % 16), hexDigitUpper (b % 16)]

/-- `email.quoprimime.header_length`. -/
def quopriHeaderLength (bs : List Nat) : Nat :=
  (bs.map (fun b => (quopriHeaderByte b).length)).sum

/-- `email.base64mime.header_length`: four output bytes for every started
group of three input bytes. -/
def b64HeaderLength (bs : List Nat) : Nat :=
  (bs.length / 3) * 4 + (if bs.length % 3 = 0 then 0 else 4)

/-- The base64 alphabet. -/
def b64Char (n : Nat) : Char :=
  if n < 26 then Char.ofNat (65 + n)
  else if n < 52 then Char.ofNat (97 + (n - 26))
  else if n < 62 then Char.ofNat (48 + (n - 52))
  else if n = 62 then '+'
  else '/'

/-- Standard base64 rendering of a byte sequence with `=` padding
(`base64.b64encode`). -/
def b64encodeBytes : List Nat → List Char
  | b1 :: b2 :: b3 :: rest =>
    b64Char (b1 / 4) :: b64Char ((b1 % 4) * 16 + b2 / 16) ::
      b64Char ((b2 % 16) * 4 + b3 / 64) :: b64Char (b3 % 64) ::
        b64encodeBytes rest
  | [b1, b2] =>
    [b64Char (b1 / 4), b64Char ((b1 % 4) * 16 + b2 / 16),
     b64Char ((b2 % 16) * 4), '=']
  | [b1] => [b64Char (b1 / 4), b64Char ((b1 % 4) * 16), '=', '=']
  | [] => []

/-- `email.quoprimime.header_encode` for the `utf-8` charset. -/
def quopriHeaderEncode (bs : List Nat) : String :=
  if bs = [] then ""
  else "=?utf-8?q?" ++ String.mk ((bs.map quopriHeaderByte).flatten) ++ "?="

/-- `email.base64mime.header_encode` for the `utf-8` charset. -/
def b64HeaderEncode (bs : List Nat) : String :=
  if bs = [] then ""
  else "=?utf-8?b?" ++ String.mk (b64encodeBytes bs) ++ "?="

/-- `Charset('utf-8').header_encode`: the `utf-8` charset's header encoding
is SHORTEST, picking base64 when its encoding is strictly shorter than the
quoted-printable one, else quoted-printable. -/
def headerEncodeUtf8 (s : String) : String :=
  let bs := utf8Bytes s
  if b64HeaderLength bs < quopriHeaderLength bs then b64HeaderEncode bs
  else quopriHeaderEncode bs

/-- Model of `email.utils.formataddr (name, mail)` with the default `utf-8`
charset: an empty name yields the bare mailbox; an ASCII name containing a
special character is rendered quoted and escaped, any other ASCII name is
rendered as `name <mail>`; a non-ASCII name is rendered as an RFC 2047
encoded word followed by the angle-bracket mailbox.  The function's initial
`address.encode('ascii')` assertion (a `UnicodeEncodeError` for a non-ASCII
mailbox) is not modelled: the model is total and no theorem covers
non-ASCII mailboxes. -/
def formataddr (name mail : String) : String :=
  if name = "" then mail
  else if isAsciiStr name then
    if name.data.any (fun c => decide (c ∈ formataddrSpecials)) then
      "\"" ++ String.mk (escapeName name.data) ++ "\" <" ++ mail ++ ">"
    else name ++ " <" ++ mail ++ ">"
  else headerEncodeUtf8 name ++ " <" ++ mail ++ ">"

/-- `MailAddress.encode`: render with `formataddr` when a display name is
present, else return the bare mailbox. -/
def MailAddress.encode (a : MailAddress) : String :=
  match a.name with
  | some n => formataddr n a.mail
  | none => a.mail

/-- Python whitespace as classified by `str.split`, `str.strip` (restricted
to the ASCII whitespace that can actually occur in the strings the embedded
code builds) and `textwrap`. -/
def pyIsSpace (c : Char) : Bool :=
  c = ' ' || c = '\t' || c = '\n' || c = '\r' || c = '\x0b' || c = '\x0c'

/-- The address parser's `specials` character class
(`email._parseaddr.AddrlistClass`). -/
def pSpecials : List Char :=
  ['(', ')', '<', '>', '@', ',', ':', ';', '.', '"', '[', ']']

/-- Linear whitespace, the parser's `LWS`. -/
def pLWS : List Char := [' ', '\t']

/-- Folding whitespace, the parser's `FWS = LWS + CR`. -/
def pFWS : List Char := [' ', '\t', '\r', '\n']

/-- The parser's `atomends = specials + LWS + CR`. -/
def pAtomends : List Char := pSpecials ++ [' ', '\t', '\r', '\n']

/-- The parser's `phraseends`: `atomends` without the dot (dots are legal
in obsolete phrases). -/
def pPhraseends : List Char :=
  ['(', ')', '<', '>', '@', ',', ':', ';', '"', '[', ']', ' ', '\t', '\r', '\n']

/-- `email._parseaddr.quote`: escape backslashes and double quotes. -/
def quoteEsc : List Char → List Char
  | [] => []
  | c :: rest =>
    if c = '\\' ∨ c = '"' then '\\' :: c :: quoteEsc rest
    else c :: quoteEsc rest

/-- The state of the address parser: `rest` is the unread suffix of the
field (modelling the cursor `pos` over the immutable field string) and
`comments` the accumulated `commentlist`. -/
structure PState where
  rest : List Char
  comments : List (List Char)

/-- `' '.join` over character lists (`SPACE.join`). -/
def spaceJoinL : List (List Char) → List Char
  | [] => []
  | [w] => w
  | w :: ws => w ++ ' ' :: spaceJoinL ws

/-- `AddrlistClass.getatom`: collect characters up to the first member of
`ends`. -/
def getatom (ends : List Char) : List Char → List Char × List Char
  | [] => ([], [])
  | c :: r =>
    if c ∈ ends then ([], c :: r)
    else
      let (a, r2) := getatom ends r
      (c :: a, r2)

mutual

/-- The scanning loop of `AddrlistClass.getdelimited`: one iteration per
character, honouring a pending backslash quote, stopping after an end
delimiter, and inlining nested comments when `allowcomments` is set (the
Python loop `continue`s there without a further cursor step).  The fuel
bounds the iterations and nesting; the top-level caller supplies more than
the input length, which every step consumes from. -/
def getdelimitedLoop (endchars : List Char) (allowcomments : Bool) :
    Nat → Bool → PState → List Char × PState
  | 0, _, st => ([], st)
  | fuel + 1, quoted, st =>
    match st.rest with
    | [] => ([], st)
    | c :: r =>
      if quoted then
        let (s, st2) := getdelimitedLoop endchars allowcomments fuel false
          ⟨r, st.comments⟩
        (c :: s, st2)
      else if c ∈ endchars then ([], ⟨r, st.comments⟩)
      else if allowcomments && (c == '(') then
        let (com, st1) := getdelimited fuel '(' [')', '\r'] true st
        let (s, st2) := getdelimitedLoop endchars allowcomments fuel false st1
        (com ++ s, st2)
      else if c = '\\' then
        getdelimitedLoop endchars allowcomments fuel true ⟨r, st.comments⟩
      else
        let (s, st2) := getdelimitedLoop endchars allowcomments fuel false
          ⟨r, st.comments⟩
        (c :: s, st2)

/-- `AddrlistClass.getdelimited`: parse a fragment delimited by
`beginchar`/`endchars`; looking at anything but `beginchar` yields the
empty fragment without consuming (the Python code would raise an
`IndexError` on an empty field; callers always check first). -/
def getdelimited : Nat → Char → List Char → Bool → PState → List Char × PState
  | 0, _, _, _, st => ([], st)
  | fuel + 1, beginchar, endchars, allowcomments, st =>
    match st.rest with
    | [] => ([], st)
    | c :: r =>
      if c = beginchar then
        getdelimitedLoop endchars allowcomments fuel false ⟨r, st.comments⟩
      else ([], st)

end

/-- `AddrlistClass.getcomment`. -/
def getcomment (fuel : Nat) (st : PState) : List Char × PState :=
  getdelimited fuel '(' [')', '\r'] true st

/-- `AddrlistClass.getquote`. -/
def getquote (fuel : Nat) (st : PState) : List Char × PState :=
  getdelimited fuel '"' ['"', '\r'] false st

/-- `AddrlistClass.getdomainliteral`. -/
def getdomainliteral (fuel : Nat) (st : PState) : List Char × PState :=
  let (s, st1) := getdelimited fuel '[' [']', '\r'] false st
  ('[' :: s ++ [']'], st1)

/-- `AddrlistClass.gotonext`: skip whitespace (returning the skipped linear
whitespace, carriage returns and newlines excluded) and collect comments
into the comment list. -/
def gotonext : Nat → PState → List Char × PState
  | 0, st => ([], st)
  | fuel + 1, st =>
    match st.rest with
    | [] => ([], st)
    | c :: r =>
      if c ∈ pFWS then
        let (ws, st2) := gotonext fuel ⟨r, st.comments⟩
        (if c ∈ pLWS then c :: ws else ws, st2)
      else if c = '(' then
        let (com, st1) := getcomment fuel st
        gotonext fuel ⟨st1.rest, st1.comments ++ [com]⟩
      else ([], st)

/-- `AddrlistClass.getphraselist`: a sequence of atoms and quoted strings,
whitespace-separated, comments collected aside. -/
def getphraselist : Nat → PState → List (List Char) × PState
  | 0, st => ([], st)
  | fuel + 1, st =>
    match st.rest with
    | [] => ([], st)
    | c :: r =>
      if c ∈ pFWS then getphraselist fuel ⟨r, st.comments⟩
      else if c = '"' then
        let (q, st1) := getquote fuel st
        let (ps, st2) := getphraselist fuel st1
        (q :: ps, st2)
      else if c = '(' then
        let (com, st1) := getcomment fuel st
        getphraselist fuel ⟨st1.rest, st1.comments ++ [com]⟩
      else if c ∈ pPhraseends then ([], st)
      else
        let (a, r2) := getatom pPhraseends st.rest
        let (ps, st2) := getphraselist fuel ⟨r2, st.comments⟩
        (a :: ps, st2)

/-- The loop of `AddrlistClass.getdomain`, with the domain accumulated in
`acc` so that the bpo-34155 guard (a second `@` discards the whole domain)
is expressible. -/
def getdomainAux : Nat → List Char → PState → List Char × PState
  | 0, acc, st => (acc, st)
  | fuel + 1, acc, st =>
    match st.rest with
    | [] => (acc, st)
    | c :: r =>
      if c ∈ pLWS then getdomainAux fuel acc ⟨r, st.comments⟩
      else if c = '(' then
        let (com, st1) := getcomment fuel st
        getdomainAux fuel acc ⟨st1.rest, st1.comments ++ [com]⟩
      else if c = '[' then
        let (dl, st1) := getdomainliteral fuel st
        getdomainAux fuel (acc ++ dl) st1
      else if c = '.' then getdomainAux fuel (acc ++ ['.']) ⟨r, st.comments⟩
      else if c = '@' then ([], st)
      else if c ∈ pAtomends then (acc, st)
      else
        let (a, r2) := getatom pAtomends st.rest
        getdomainAux fuel (acc ++ a) ⟨r2, st.comments⟩

/-- `AddrlistClass.getdomain`. -/
def getdomain (fuel : Nat) (st : PState) : List Char × PState :=
  getdomainAux fuel [] st

/-- `if aslist and not aslist[-1].strip(): aslist.pop()` — drop a trailing
element that is empty or all whitespace. -/
def popTrailingWsElem (aslist : List (List Char)) : List (List Char) :=
  match aslist.getLast? with
  | some e => if e.all pyIsSpace then aslist.dropLast else aslist
  | none => aslist

/-- The loop of `AddrlistClass.getaddrspec`, collecting the pieces of the
local part (`aslist`): dots (dropping a pending whitespace piece first),
quoted strings (re-escaped), atoms, and the whitespace between them; it
stops before any other atom-ending character, dropping a trailing
whitespace piece. -/
def getaddrspecLoop : Nat → List (List Char) → PState → List (List Char) × PState
  | 0, aslist, st => (aslist, st)
  | fuel + 1, aslist, st =>
    match st.rest with
    | [] => (aslist, st)
    | c :: r =>
      if c = '.' then
        let aslist2 := popTrailingWsElem aslist ++ [['.']]
        let (_, st2) := gotonext fuel ⟨r, st.comments⟩
        getaddrspecLoop fuel aslist2 st2
      else if c = '"' then
        let (q, st1) := getquote fuel st
        let aslist2 := aslist ++ [('"' :: quoteEsc q) ++ ['"']]
        let (ws, st2) := gotonext fuel st1
        getaddrspecLoop fuel (if ws = [] then aslist2 else aslist2 ++ [ws]) st2
      else if c ∈ pAtomends then (popTrailingWsElem aslist, st)
      else
        let (a, r2) := getatom pAtomends st.rest
        let aslist2 := aslist ++ [a]
        let (ws, st2) := gotonext fuel ⟨r2, st.comments⟩
        getaddrspecLoop fuel (if ws = [] then aslist2 else aslist2 ++ [ws]) st2

/-- `AddrlistClass.getaddrspec`: local part, `@`, domain; an absent `@`
yields just the local part, an empty domain discards everything. -/
def getaddrspec : Nat → PState → List Char × PState
  | 0, st => ([], st)
  | fuel + 1, st =>
    let (_, st1) := gotonext fuel st
    let (aslist, st2) := getaddrspecLoop fuel [] st1
    match st2.rest with
    | '@' :: r =>
      let (_, st3) := gotonext fuel ⟨r, st2.comments⟩
      let (domain, st4) := getdomainAux fuel [] st3
      if domain = [] then ([], st4)
      else (aslist.flatten ++ '@' :: domain, st4)
    | _ => (aslist.flatten, st2)

/-- The loop of `AddrlistClass.getrouteaddr`: skip route syntax and return
the addr-spec (consuming one further character after it, the closing angle
bracket on well-formed input). -/
def routeLoop : Nat → Bool → List Char → PState → List Char × PState
  | 0, _, adlist, st => (adlist, st)
  | fuel + 1, expectroute, adlist, st =>
    match st.rest with
    | [] => (adlist, st)
    | c :: r =>
      if expectroute then
        let (_, st1) := getdomain fuel st
        let (_, st2) := gotonext fuel st1
        routeLoop fuel false adlist st2
      else if c = '>' then (adlist, ⟨r, st.comments⟩)
      else if c = '@' then
        let (_, st2) := gotonext fuel ⟨r, st.comments⟩
        routeLoop fuel true adlist st2
      else if c = ':' then
        let (_, st2) := gotonext fuel ⟨r, st.comments⟩
        routeLoop fuel expectroute adlist st2
      else
        let (adl, st1) := getaddrspec fuel st
        (adl, ⟨st1.rest.drop 1, st1.comments⟩)

/-- `AddrlistClass.getrouteaddr`; on anything but `<` the Python method
returns `None` without consuming, which no caller reaches — modelled as the
empty addr-spec. -/
def getrouteaddr : Nat → PState → List Char × PState
  | 0, st => ([], st)
  | fuel + 1, st =>
    match st.rest with
    | '<' :: r =>
      let (_, st1) := gotonext fuel ⟨r, st.comments⟩
      routeLoop fuel false [] st1
    | _ => ([], st)

mutual

/-- `AddrlistClass.getaddress`: reset the comment list, skip to the next
token, read a phrase, and dispatch on the following character: end of
field, an addr-spec re-parse from the position before the phrase (the
`oldcl` comment-list restore in the source re-installs the same mutated
list object, so comments collected during the phrase scan persist), a
group, a route address, or a bare phrase; then skip one trailing comma. -/
def getaddress : Nat → PState → List (List Char × List Char) × PState
  | 0, st => ([], st)
  | fuel + 1, st =>
    let (_, stA) := gotonext fuel ⟨st.rest, []⟩
    let (plist, stB) := getphraselist fuel stA
    let (_, stC) := gotonext fuel stB
    let (returnlist, stD) :=
      match stC.rest with
      | [] =>
        (match plist with
         | p :: _ => [(spaceJoinL stC.comments, p)]
         | [] => ([] : List (List Char × List Char)), stC)
      | c :: r =>
        if c = '.' ∨ c = '@' then
          let (addrspec, stG) := getaddrspec fuel ⟨stA.rest, stC.comments⟩
          ([(spaceJoinL stG.comments, addrspec)], stG)
        else if c = ':' then groupLoop fuel [] ⟨r, stC.comments⟩
        else if c = '<' then
          let (ra, stG) := getrouteaddr fuel stC
          (if stG.comments = [] then [(spaceJoinL plist, ra)]
           else
             [(spaceJoinL plist ++ ' ' :: '(' :: spaceJoinL stG.comments ++
                [')'], ra)], stG)
        else
          match plist with
          | p :: _ => ([(spaceJoinL stC.comments, p)], stC)
          | [] =>
            if c ∈ pSpecials then
              (([] : List (List Char × List Char)), (⟨r, stC.comments⟩ : PState))
            else (([] : List (List Char × List Char)), stC)
    let (_, stE) := gotonext fuel stD
    match stE.rest with
    | c :: r =>
      if c = ',' then (returnlist, ⟨r, stE.comments⟩) else (returnlist, stE)
    | [] => (returnlist, stE)

/-- The group loop inside `getaddress` (the `:` branch): collect addresses
until a `;` or the end of the field. -/
def groupLoop : Nat → List (List Char × List Char) → PState →
    List (List Char × List Char) × PState
  | 0, acc, st => (acc, st)
  | fuel + 1, acc, st =>
    match st.rest with
    | [] => (acc, st)
    | _ :: _ =>
      let (_, st1) := gotonext fuel st
      match st1.rest with
      | ';' :: r => (acc, ⟨r, st1.comments⟩)
      | _ =>
        let (ad, st2) := getaddress fuel st1
        groupLoop fuel (acc ++ ad) st2

end

/-- `AddrlistClass.getaddrlist`: parse addresses until the field is
exhausted; an iteration that produces no address contributes one empty
`('', '')` pair. -/
def getaddrlistLoop : Nat → List (List Char × List Char) → PState →
    List (List Char × List Char) × PState
  | 0, acc, st => (acc, st)
  | fuel + 1, acc, st =>
    match st.rest with
    | [] => (acc, st)
    | _ :: _ =>
      let (ad, st1) := getaddress fuel st
      getaddrlistLoop fuel
        (match ad with
         | [] => acc ++ [([], [])]
         | _ => acc ++ ad) st1

/-- Model of `email.utils.getaddresses([s])` = `AddressList(s).addresslist`:
run `getaddrlist` on the whole field with an empty comment list.  The fuel
`(n + 16)²` exceeds the total number of loop iterations and nested calls on
any field of length `n`, since every continuing iteration consumes at least
one character and call depth is bounded by the field length. -/
def getaddressesL (cs : List Char) : List (List Char × List Char) :=
  (getaddrlistLoop ((cs.length + 16) * (cs.length + 16)) [] ⟨cs, []⟩).1

/-- An atom character as both sides of the round-trip need it: ASCII (the
encoder requires an ASCII name or mailbox), not an atom-ending character,
and not Python whitespace (a whitespace-only piece of a local part would be
dropped by the addr-spec parser). -/
def isAtomChar (c : Char) : Bool :=
  decide (c.toNat < 128) && !(decide (c ∈ pAtomends)) && !(pyIsSpace c)

/-- A character allowed in the local part or the domain of a well-formed
mailbox: an atom character or a dot. -/
def isAddrSpecChar (c : Char) : Bool := isAtomChar c || c == '.'

/-- A well-formed mailbox for the round-trip statement: a nonempty local
part, one `@`, and a nonempty domain, both made of atom characters and
dots. -/
def ValidMailbox (m : String) : Prop :=
  ∃ lp dom : List Char, m.data = lp ++ '@' :: dom ∧ lp ≠ [] ∧ dom ≠ [] ∧
    (∀ c ∈ lp, isAddrSpecChar c = true) ∧ (∀ c ∈ dom, isAddrSpecChar c = true)

/-- A character allowed in a display-name word: an atom character that is
not a backslash, so that `formataddr` neither quotes nor escapes it. -/
def isNameChar (c : Char) : Bool := isAtomChar c && !(c == '\\')

/-- A well-formed display name for the round-trip statement: one or more
nonempty words of name characters joined by single spaces (the parser
canonicalizes whitespace runs to single spaces, so only these survive a
round-trip exactly). -/
def ValidDisplayName (n : String) : Prop :=
  ∃ ws : List (List Char), n.data = spaceJoinL ws ∧ ws ≠ [] ∧
    ∀ w ∈ ws, w ≠ [] ∧ ∀ c ∈ w, isNameChar c = true

/-- The string arm of `MailAddress.parse`: `((name, mail),) =
getaddresses([addr])` demands exactly one pair and otherwise raises (the
`malformedAddress` error kind); an empty extracted display name is
normalized to `none`. -/
def MailAddress.parseStr (s : String) : Except MailError MailAddress :=
  match getaddressesL s.data with
  | [(name, mail)] =>
    if name = [] then .ok ⟨String.mk mail, none⟩
    else .ok ⟨String.mk mail, some (String.mk name)⟩
  | _ => .error .malformedAddress

/-- `MailAddress.parse`: an already-constructed address is returned
unchanged (the `isinstance` branch), a string is parsed. -/
def MailAddress.parse : MailAddress ⊕ String → Except MailError MailAddress
  | .inl a => .ok a
  | .inr s => MailAddress.parseStr s

/-- The `SerializedEmail` dataclass.  Its source annotation declares
`content: bytes`, but `Email.serialize` assigns the assembled MIME message
object itself, never rendering it to bytes; the model therefore gives
`content` the type `MimeEntity`, which is what the code actually stores. -/
structure SerializedEmail where
  recipients : List String
  content : MimeEntity

/-- The `Attachment` dataclass. -/
structure Attachment where
  data : List Nat
  maintype : String
  subtype : String
  filename : String
  inline : Bool
  content_id : String
deriving DecidableEq, Repr

/-- `MIMEGeneric`: a non-multipart entity with the given payload whose
transfer encoding is applied by the `encoder` argument, modelled by the
resulting `Content-Transfer-Encoding` value. -/
def MIMEGeneric (payload : Payload) (maintype subtype : String) (cte : String) :
    MimeEntity :=
  MimeEntity.leaf maintype subtype [] cte [] payload

/-- `Attachment.as_mime`: a base64-encoded leaf carrying the Content-Disposition
(with inline/attachment and the filename) and the Content-ID headers. -/
def Attachment.as_mime (a : Attachment) : MimeEntity :=
  MimeEntity.leaf a.maintype a.subtype [] "base64"
    [("Content-Disposition",
      (if a.inline then "inline" else "attachment") ++
        "; filename=\"" ++ a.filename ++ "\""),
     ("Content-ID", a.content_id)]
    (Payload.bytes a.data)

/-- Model of `textwrap`'s `_munge_whitespace`: every whitespace character is
replaced by a single space (the model maps a tab to one space rather than
expanding it to a tab stop). -/
def mungeWhitespace (cs : List Char) : List Char :=
  cs.map (fun c => if pyIsSpace c then ' ' else c)

/-- Model of `textwrap`'s `_split` (without the hyphen splitting of
`break_on_hyphens`): the maximal runs of spaces and of non-spaces, in order.
All chunks are nonempty by construction. -/
def toChunks : List Char → List (List Char)
  | [] => []
  | c :: rest =>
    match toChunks rest with
    | [] => [[c]]
    | [] :: gs => [c] :: [] :: gs
    | (d :: ds) :: gs =>
      if (c == ' ') = (d == ' ') then (c :: d :: ds) :: gs
      else [c] :: (d :: ds) :: gs

/-- Whether a chunk is entirely whitespace (`chunk.strip() == ''`). -/
def isWsChunk (ch : List Char) : Bool := ch.all (fun c => c == ' ')

/-- Total length of a chunk list. -/
def lenSum (chs : List (List Char)) : Nat := (chs.map List.length).sum

/-- The greedy inner loop of `textwrap._wrap_chunks`: pop chunks onto the
current line while they fit in `width` given `cur` characters already taken;
returns the taken prefix and the remaining chunks. -/
def takeFit (width : Nat) (cur : Nat) : List (List Char) → List (List Char) × List (List Char)
  | [] => ([], [])
  | ch :: rest =>
    if cur + ch.length ≤ width then
      let (a, b) := takeFit width (cur + ch.length) rest
      (ch :: a, b)
    else ([], ch :: rest)

/-- Drop one leading whitespace chunk (`drop_whitespace` at the start of a
continuation line). -/
def dropLeadingWsChunk : List (List Char) → List (List Char)
  | ch :: rest => if isWsChunk ch then rest else ch :: rest
  | [] => []

/-- Drop one trailing whitespace chunk of the current line
(`drop_whitespace` at the end of a line). -/
def dropTrailingWsChunk (cur : List (List Char)) : List (List Char) :=
  match cur.getLast? with
  | some ch => if isWsChunk ch then cur.dropLast else cur
  | none => cur

/-- The `_handle_long_word` step of `textwrap._wrap_chunks` with
`break_long_words` (the `break_on_hyphens` refinement of where the word is
cut is not modelled): when the next chunk is longer than the whole width,
cut it at the space remaining on the current line. -/
def longWordAdjust (width : Nat) (cur : List (List Char)) :
    List (List Char) → List (List Char) × List (List Char)
  | wd :: rest2 =>
    if width < wd.length then
      (cur ++ [wd.take (if width < 1 then 1 else width - lenSum cur)],
       wd.drop (if width < 1 then 1 else width - lenSum cur) :: rest2)
    else (cur, wd :: rest2)
  | [] => (cur, [])

/-- One line of `textwrap._wrap_chunks` with the default options used by
the source (`drop_whitespace`, `break_long_words`, no indents): greedily
take chunks that fit, cut a word longer than the whole width at the
remaining space, and drop one trailing whitespace chunk; returns the chunks
of the line and the remaining chunks. -/
def lineSplit (width : Nat) (chunks : List (List Char)) :
    List (List Char) × List (List Char) :=
  let tf := takeFit width 0 chunks
  let adj := longWordAdjust width tf.1 tf.2
  (dropTrailingWsChunk adj.1, adj.2)

/-- The loop of `textwrap._wrap_chunks`: drop a leading whitespace chunk
once a line has been emitted (`started`), split off one line, and emit it
when nonempty.  The fuel bounds the number of iterations;
`lenSum chunks + chunks.length + 1` is always sufficient because every
iteration consumes at least one character or one chunk. -/
def wrapChunks (width : Nat) : Nat → Bool → List (List Char) → List (List Char)
  | 0, _, _ => []
  | fuel + 1, started, chunks0 =>
    match (if started then dropLeadingWsChunk chunks0 else chunks0) with
    | [] => []
    | c0 :: rest0 =>
      if (lineSplit width (c0 :: rest0)).1 = [] then
        wrapChunks width fuel started (lineSplit width (c0 :: rest0)).2
      else
        (lineSplit width (c0 :: rest0)).1.flatten ::
          wrapChunks width fuel true (lineSplit width (c0 :: rest0)).2

/-- Model of `textwrap.wrap(text, width = 72)` with default options. -/
def textwrapWrap (cs : List Char) : List (List Char) :=
  let chunks := toChunks (mungeWhitespace cs)
  wrapChunks 72 (lenSum chunks + chunks.length + 1) false chunks

/-- One loop iteration of `Email._wrap_paragraphs`: the wrapped lines of one
paragraph, where a paragraph that wraps to nothing is kept as a single empty
line (`if len(parwrapped) == 0: parwrapped = [""]`). -/
def wrapOne (p : List Char) : List (List Char) :=
  match textwrapWrap p with
  | [] => [[]]
  | w => w

/-- `text.split("\n")`: split at every newline, keeping empty pieces. -/
def splitNl : List Char → List (List Char)
  | [] => [[]]
  | c :: rest =>
    if c = '\n' then [] :: splitNl rest
    else
      match splitNl rest with
      | [] => [[c]]
      | p :: ps => (c :: p) :: ps

/-- `"\n".join(lines)`. -/
def joinNl : List (List Char) → List Char
  | [] => []
  | [l] => l
  | l :: ls => l ++ '\n' :: joinNl ls

/-- `Email._wrap_paragraphs`: split the text on newlines, wrap each paragraph
independently, and join all produced lines with newlines. -/
def wrapParagraphsL (cs : List Char) : List Char :=
  joinNl ((splitNl cs).map wrapOne).flatten

/-- String-typed wrapper of `Email._wrap_paragraphs`. -/
def wrapParagraphs (t : String) : String := String.mk (wrapParagraphsL t.data)

/-- Modelled from the spec: the package version constant `mailcoil.VERSION`
(defined in the package `__init__`, which is not part of the given source);
its concrete value is irrelevant to every claim. -/
def mailcoilVERSION : String := "1.0"

/-- Model of `email.utils.formatdate(t, localtime = True)`: an injective pure
rendering of the stored timestamp.  The actual RFC 2822 date grammar is not
reproduced; every claim about this header concerns only that its value is a
function of the construction-time timestamp alone. -/
def formatdate (t : Int) : String := "DateStamp " ++ toString t

/-- The `Email` aggregate; one field per attribute set in `Email.__init__`
(the Python `self._from` is named `fromAddr` because `from` is a Lean
keyword). -/
structure Email where
  fromAddr : MailAddress
  «to» : List MailAddress := []
  cc : List MailAddress := []
  bcc : List MailAddress := []
  subject : Option String := none
  text : Option String := none
  wrapText : Bool := false
  html : Option String := none
  security : Option (MimeEntity → MimeEntity) := none
  datetime : Int := 0
  messageId : String := ""
  attachments : List Attachment := []

/-- `Email.recipient_count`. -/
def Email.recipientCount (e : Email) : Nat :=
  e.«to».length + e.cc.length + e.bcc.length

/-- The `wrapped_text` property applied to a present text body:
`_wrap_paragraphs(text)` when `wrap_text` is set, else the text itself. -/
def Email.wrappedOf (e : Email) (t : String) : String :=
  if e.wrapText then wrapParagraphs t else t

/-- `Email._render_text_quopri`: a quoted-printable text leaf with the UTF-8
charset parameter set on the content type. -/
def renderTextQuopri (t : String) (subtype : String) : MimeEntity :=
  MimeEntity.leaf "text" subtype [("charset", "utf-8")] "quoted-printable" []
    (Payload.text t)

/-- `Email._layer_text_content` in state-passing style.  The method first
raises `NoRecipientException` when no recipient is set, then
`NoBodyException` when neither text nor HTML is present, and otherwise
builds the body layer; it never writes to `self`, so the returned post-state
is the input unchanged. -/
def Email.layerTextContent (e : Email) : Except MailError (MimeEntity × Email) :=
  if e.recipientCount = 0 then .error .noRecipient
  else
    match e.text, e.html with
    | some t, some h =>
      .ok (.multipart "alternative" []
        [renderTextQuopri (e.wrappedOf t) "plain", renderTextQuopri h "html"], e)
    | some t, none => .ok (renderTextQuopri (e.wrappedOf t) "plain", e)
    | none, some h => .ok (renderTextQuopri h "html", e)
    | none, none => .error .noBody

/-- The document computed by `Email._layer_attachments`: with no attachments
the previous layer passes through unchanged, otherwise a `multipart/related`
container holds the previous layer first and then each attachment's rendered
leaf in list order. -/
def Email.layerAttachmentsDoc (e : Email) (prevLayer : MimeEntity) : MimeEntity :=
  if e.attachments.length = 0 then prevLayer
  else .multipart "related" []
    (prevLayer :: e.attachments.map Attachment.as_mime)

/-- `Email._layer_attachments` in state-passing style; the method only reads
`self`, so the post-state is the input. -/
def Email.layerAttachments (e : Email) (prevLayer : MimeEntity) : MimeEntity × Email :=
  (e.layerAttachmentsDoc prevLayer, e)

/-- The document computed by `Email._layer_security`: the identity when no
security policy is configured, else the external transform applied to the
assembled entity. -/
def Email.layerSecurityDoc (e : Email) (prevLayer : MimeEntity) : MimeEntity :=
  match e.security with
  | none => prevLayer
  | some proc => proc prevLayer

/-- `Email._layer_security` in state-passing style; the method only reads
`self`, so the post-state is the input. -/
def Email.layerSecurity (e : Email) (prevLayer : MimeEntity) : MimeEntity × Email :=
  (e.layerSecurityDoc prevLayer, e)

/-- `", ".join(address.encode() for address in l)`. -/
def joinAddrs (l : List MailAddress) : String :=
  String.intercalate ", " (l.map MailAddress.encode)

/-- `Email.serialize` in state-passing style: layer the body, the
attachments and the security transform, then append the final headers in
source order, and pair the resulting document with the flattened recipient
mailbox list.  The second component is the post-state of `self`. -/
def Email.serialize (e : Email) : Except MailError SerializedEmail × Email :=
  match e.layerTextContent with
  | .error err => (.error err, e)
  | .ok (msg0, e1) =>
    let (msg1, e2) := e1.layerAttachments msg0
    let (msg2, e3) := e2.layerSecurity msg1
    let msg3 :=
      match e3.subject with
      | some subj => msg2.addHeader "Subject" subj
      | none => msg2
    let msg4 := msg3.addHeader "Message-ID" e3.messageId
    let msg5 := msg4.addHeader "Date" (formatdate e3.datetime)
    let msg6 := msg5.addHeader "User-Agent" ("mailcoil v" ++ mailcoilVERSION)
    let msg7 := msg6.addHeader "From" e3.fromAddr.encode
    let msg8 := if 0 < e3.«to».length then msg7.addHeader "To" (joinAddrs e3.«to») else msg7
    let msg9 := if 0 < e3.cc.length then msg8.addHeader "CC" (joinAddrs e3.cc) else msg8
    let msg10 := if 0 < e3.bcc.length then msg9.addHeader "BCC" (joinAddrs e3.bcc) else msg9
    (.ok { recipients := (e3.«to» ++ e3.cc ++ e3.bcc).map MailAddress.mail,
           content := msg10 }, e3)

/-- The ambient effect state available to `Email.__init__`: the wall clock
read by `time.time()` and the entropy stream read by `os.urandom`. -/
structure World where
  time : Int
  rand : List Nat

/-- Hexadecimal digit. -/
def hexDigitChar (n : Nat) : Char :=
  if n < 10 then Char.ofNat (48 + n) else Char.ofNat (87 + n)

/-- Two-digit lowercase hex rendering of one byte (`bytes.hex` per byte). -/
def hexByte (n : Nat) : List Char :=
  [hexDigitChar ((n / 16) % 16), hexDigitChar (n % 16)]

/-- `os.urandom(16).hex()` on the first sixteen bytes of the entropy
stream. -/
def hexString (bs : List Nat) : String := String.mk ((bs.map hexByte).flatten)

/-- `Email.__init__`: parse the sender, leave recipients and attachments
empty, and fix the identity metadata from the construction-time world:
`_datetime` from the clock, `_message_id` from sixteen fresh random bytes. -/
def mkEmail (from_address : MailAddress ⊕ String) (subject : Option String)
    (text : Option String) (wrap_text : Bool) (html : Option String)
    (security : Option (MimeEntity → MimeEntity)) (w : World) :
    Except MailError Email :=
  (MailAddress.parse from_address).map fun fa =>
    { fromAddr := fa
      subject := subject
      text := text
      wrapText := wrap_text
      html := html
      security := security
      datetime := w.time
      messageId := "<" ++ hexString (w.rand.take 16) ++ "@mailcoil>" }

/-- `Email.serialize` as a function of the ambient world: the method body
contains no call to the clock or to the random source (those occur only in
`__init__`), so the world argument is unused. -/
def Email.serializeW (e : Email) (_w : World) : Except MailError SerializedEmail :=
  (e.serialize).1

/-- A concrete sender address used by the evaluation theorems. -/
def addrAlice : MailAddress := ⟨"alice@example.com", none⟩

/-- A concrete recipient address used by the evaluation theorems. -/
def addrBob : MailAddress := ⟨"bob@example.com", none⟩

/-- A concrete fully-populated plain-text email. -/
def sampleEmail : Email :=
  { fromAddr := addrAlice
    «to» := [addrBob]
    subject := some "Hi"
    text := some "Hello"
    datetime := 1700000000
    messageId := "<c0ffee@mailcoil>" }

/-- The value `sampleEmail.serialize` produces: the assembled MIME entity
(not a rendered byte sequence) paired with the flattened recipient list. -/
def sampleSerialized : SerializedEmail :=
  { recipients := ["bob@example.com"]
    content := MimeEntity.leaf "text" "plain" [("charset", "utf-8")]
      "quoted-printable"
      [("Subject", "Hi"),
       ("Message-ID", "<c0ffee@mailcoil>"),
       ("Date", "DateStamp 1700000000"),
       ("User-Agent", "mailcoil v1.0"),
       ("From", "alice@example.com"),
       ("To", "bob@example.com")]
      (Payload.text "Hello") }

/-- A concrete email with no recipients and no body. -/
def emptyEmail : Email := { fromAddr := addrAlice }

/-- A concrete email with a recipient but no body. -/
def bodylessEmail : Email := { fromAddr := addrAlice, «to» := [addrBob] }

/-- A concrete attachment. -/
def sampleAttachment : Attachment :=
  { data := [1, 2, 3]
    maintype := "image"
    subtype := "png"
    filename := "x.png"
    inline := true
    content_id := "cid0" }

/-- A concrete email with text, HTML and one attachment. -/
def richEmail : Email :=
  { fromAddr := addrAlice
    «to» := [addrBob]
    cc := [⟨"carol@example.com", some "Carol"⟩]
    text := some "Hello"
    html := some "<p>Hello</p>"
    datetime := 1700000001
    messageId := "<beef@mailcoil>"
    attachments := [sampleAttachment] }

theorem layerTextContent_state (e : Email) (p : MimeEntity × Email)
    (h : e.layerTextContent = .ok p) : p.2 = e := by
  unfold Email.layerTextContent at h
  by_cases hr : e.recipientCount = 0 <;>
    cases ht : e.text <;> cases hh : e.html <;>
      simp [hr, ht, hh] at h <;> simp [← h]

theorem headersOf_addHeader (m : MimeEntity) (k v : String) :
    (m.addHeader k v).headersOf = m.headersOf ++ [(k, v)] := by
  cases m <;> rfl

/-- C2: serialize raises the no-recipient error exactly when the recipient
count is zero, raises the no-body error exactly when recipients exist but
neither text nor HTML is set, and in every failing case the post-state of
the Email equals its pre-state (no side effects). -/
theorem serialize_error_conditions (e : Email) :
    ((e.serialize).1 = .error .noRecipient ↔ e.recipientCount = 0) ∧
    ((e.serialize).1 = .error .noBody ↔
      e.recipientCount ≠ 0 ∧ e.text = none ∧ e.html = none) ∧
    (∀ err, (e.serialize).1 = .error err → (e.serialize).2 = e) := by
  by_cases hr : e.recipientCount = 0 <;>
    cases ht : e.text <;> cases hh : e.html <;>
      refine ⟨?_, ?_, ?_⟩ <;>
        simp [Email.serialize, Email.layerTextContent, Email.layerAttachments,
          Email.layerSecurity, hr, ht, hh]

/-- C2 witness: on the concrete recipientless email, serialize fails with
the no-recipient error and the email is unchanged. -/
theorem serialize_error_conditions_witness :
    (emptyEmail.serialize).1 = .error .noRecipient ∧
    (emptyEmail.serialize).2 = emptyEmail :=
  ⟨(serialize_error_conditions emptyEmail).1.mpr rfl,
   (serialize_error_conditions emptyEmail).2.2 .noRecipient
     ((serialize_error_conditions emptyEmail).1.mpr rfl)⟩

/-- C10: when an email has zero recipients and also no text and no HTML
body, serialize raises the no-recipient error — the recipient check runs
before the body-content check. -/
theorem serialize_noRecipient_precedence (e : Email)
    (hr : e.recipientCount = 0) (_ht : e.text = none) (_hh : e.html = none) :
    (e.serialize).1 = .error .noRecipient := by
  simp [Email.serialize, Email.layerTextContent, hr]

/-- C10 witness: the concrete empty email (no recipients, no body) fails
with the no-recipient error, not the no-body error. -/
theorem serialize_noRecipient_precedence_witness :
    (emptyEmail.serialize).1 = .error .noRecipient :=
  serialize_noRecipient_precedence emptyEmail rfl rfl rfl

/-- C3: whenever serialize succeeds, the recipients of the result are, in
order, the mailbox strings of `to`, then `cc`, then `bcc`, display names
stripped. -/
theorem serialize_recipients (e : Email) (s : SerializedEmail)
    (h : (e.serialize).1 = .ok s) :
    s.recipients = (e.«to» ++ e.cc ++ e.bcc).map MailAddress.mail := by
  by_cases hr : e.recipientCount = 0 <;>
    cases ht : e.text <;> cases hh : e.html <;>
      simp [Email.serialize, Email.layerTextContent, Email.layerAttachments,
        Email.layerSecurity, hr, ht, hh] at h <;>
      simp [← h]

/-- C3 witness: the concrete rich email serializes with recipients
`to ++ cc ++ bcc`, display names stripped. -/
theorem serialize_recipients_witness :
    ∃ s : SerializedEmail, (richEmail.serialize).1 = .ok s ∧
      s.recipients = ["bob@example.com", "carol@example.com"] :=
  ⟨(richEmail.serialize).1.toOption.get rfl, rfl,
    serialize_recipients richEmail _ rfl⟩

/-- C4: given at least one recipient, the body layer is a
`multipart/alternative` container with the plain-text part first and the
HTML part second when both bodies are present, the single plain-text leaf
when only text is present, and the single HTML leaf when only HTML is
present. -/
theorem body_layer_shape (e : Email) (hr : e.recipientCount ≠ 0) :
    (∀ t h, e.text = some t → e.html = some h →
      e.layerTextContent = .ok (.multipart "alternative" []
        [renderTextQuopri (e.wrappedOf t) "plain",
         renderTextQuopri h "html"], e)) ∧
    (∀ t, e.text = some t → e.html = none →
      e.layerTextContent = .ok (renderTextQuopri (e.wrappedOf t) "plain", e)) ∧
    (∀ h, e.text = none → e.html = some h →
      e.layerTextContent = .ok (renderTextQuopri h "html", e)) := by
  refine ⟨?_, ?_, ?_⟩ <;> intros <;>
    simp [Email.layerTextContent, hr, *]

/-- C4 witness: the concrete email with both bodies produces the two-part
alternative container, plain part first. -/
theorem body_layer_shape_witness :
    richEmail.layerTextContent = .ok (.multipart "alternative" []
      [renderTextQuopri (richEmail.wrappedOf "Hello") "plain",
       renderTextQuopri "<p>Hello</p>" "html"], richEmail) :=
  (body_layer_shape richEmail (by decide)).1 "Hello" "<p>Hello</p>" rfl rfl

/-- C5: the attachment layer passes the body layer through unchanged when
the attachment list is empty, and otherwise wraps it in a
`multipart/related` whose first child is the body layer followed by the
attachments' rendered leaves in the order they were added. -/
theorem attachment_layer_shape (e : Email) (prev : MimeEntity) :
    (e.attachments = [] → e.layerAttachments prev = (prev, e)) ∧
    (e.attachments ≠ [] → e.layerAttachments prev =
      (.multipart "related" []
        (prev :: e.attachments.map Attachment.as_mime), e)) := by
  constructor <;> intro h <;>
    simp [Email.layerAttachments, Email.layerAttachmentsDoc,
      List.length_eq_zero, h]

/-- C5 witness: the concrete email with one attachment wraps the body layer
in a related container with the attachment leaf second. -/
theorem attachment_layer_shape_witness :
    richEmail.layerAttachments (renderTextQuopri "Hello" "plain") =
      (.multipart "related"
        [] [renderTextQuopri "Hello" "plain", sampleAttachment.as_mime],
       richEmail) :=
  (attachment_layer_shape richEmail (renderTextQuopri "Hello" "plain")).2
    (by decide)

/-- C9: serializing the same unmodified email is independent of the ambient
world (clock and entropy): two calls agree exactly, and on success the
output carries a `Message-ID` header equal to the construction-time
`messageId` field and a `Date` header formatted from the construction-time
timestamp — neither is regenerated at serialize time. -/
theorem serialize_identity_headers (e : Email) (w1 w2 : World) :
    e.serializeW w1 = e.serializeW w2 ∧
    ∀ s, e.serializeW w1 = .ok s →
      ("Message-ID", e.messageId) ∈ s.content.headersOf ∧
      ("Date", formatdate e.datetime) ∈ s.content.headersOf := by
  refine ⟨rfl, ?_⟩
  intro s h
  by_cases hr : e.recipientCount = 0 <;>
    cases ht : e.text <;> cases hh : e.html <;> cases hs : e.subject <;>
      simp [Email.serializeW, Email.serialize, Email.layerTextContent,
        Email.layerAttachments, Email.layerSecurity, hr, ht, hh, hs] at h <;>
      subst h <;>
      constructor <;>
        · split_ifs <;> simp [headersOf_addHeader]

/-- C9 witness: the concrete email serializes identically under two
different worlds, and its output contains the construction-time
`Message-ID` and `Date` headers. -/
theorem serialize_identity_headers_witness :
    sampleEmail.serializeW ⟨5, [1]⟩ = sampleEmail.serializeW ⟨6, [2]⟩ ∧
    (("Message-ID", sampleEmail.messageId) ∈
        sampleSerialized.content.headersOf ∧
      ("Date", formatdate sampleEmail.datetime) ∈
        sampleSerialized.content.headersOf) :=
  ⟨(serialize_identity_headers sampleEmail ⟨5, [1]⟩ ⟨6, [2]⟩).1,
   (serialize_identity_headers sampleEmail ⟨5, [1]⟩ ⟨6, [2]⟩).2
     sampleSerialized rfl⟩

/-- C1: evaluation of `serialize` on a concrete email.  The claim states
that the `content` field of the result is the final document as a byte
sequence ready for transport, matching the dataclass annotation
`content: bytes`; the code instead stores the assembled MIME message
object itself (`SerializedEmail(content = msg, ...)` with `msg` a
`MIMEBase`), never rendering it to bytes.  This theorem exhibits the stored
value: the structured entity `sampleSerialized.content`, not a rendered
byte string. -/
theorem serialize_content_is_entity :
    (sampleEmail.serialize).1 = .ok sampleSerialized := by rfl

theorem lenSum_cons (ch : List Char) (l : List (List Char)) :
    lenSum (ch :: l) = ch.length + lenSum l := by
  simp [lenSum]

theorem lenSum_append (a b : List (List Char)) :
    lenSum (a ++ b) = lenSum a + lenSum b := by
  simp [lenSum]

theorem takeFit_append (w : Nat) (cur : Nat) (chunks : List (List Char)) :
    (takeFit w cur chunks).1 ++ (takeFit w cur chunks).2 = chunks := by
  induction chunks generalizing cur with
  | nil => rfl
  | cons ch rest ih =>
    by_cases hfit : cur + ch.length ≤ w
    · rcases h : takeFit w (cur + ch.length) rest with ⟨a, b⟩
      have hab := ih (cur + ch.length)
      rw [h] at hab
      simp only [takeFit, if_pos hfit, h]
      simpa using hab
    · simp [takeFit, if_neg hfit]

theorem takeFit_lenSum (w : Nat) (chunks : List (List Char)) (cur : Nat) :
    (takeFit w cur chunks).1 = [] ∨ cur + lenSum (takeFit w cur chunks).1 ≤ w := by
  induction chunks generalizing cur with
  | nil => exact Or.inl rfl
  | cons ch rest ih =>
    by_cases hfit : cur + ch.length ≤ w
    · rcases h : takeFit w (cur + ch.length) rest with ⟨a, b⟩
      simp only [takeFit, if_pos hfit, h]
      right
      rcases ih (cur + ch.length) with h1 | h1 <;> rw [h] at h1 <;>
        simp only at h1
      · subst h1; simpa [lenSum_cons, lenSum] using hfit
      · rw [lenSum_cons]; omega
    · exact Or.inl (by simp [takeFit, if_neg hfit])

theorem takeFit_prop (P : Char → Prop) (w cur : Nat) (chunks : List (List Char))
    (h : ∀ ch ∈ chunks, ∀ c ∈ ch, P c) :
    (∀ ch ∈ (takeFit w cur chunks).1, ∀ c ∈ ch, P c) ∧
    (∀ ch ∈ (takeFit w cur chunks).2, ∀ c ∈ ch, P c) := by
  have happ := takeFit_append w cur chunks
  refine ⟨fun ch hch => h ch ?_, fun ch hch => h ch ?_⟩
  · rw [← happ]; exact List.mem_append_left _ hch
  · rw [← happ]; exact List.mem_append_right _ hch

theorem dropTrailingWsChunk_subset (x : List (List Char)) :
    ∀ ch ∈ dropTrailingWsChunk x, ch ∈ x := by
  intro ch hch
  rcases h : x.getLast? with _ | last <;>
    simp only [dropTrailingWsChunk, h] at hch
  · exact hch
  · by_cases hws : isWsChunk last = true
    · rw [if_pos hws] at hch
      exact List.dropLast_subset x hch
    · rw [if_neg hws] at hch
      exact hch

theorem lenSum_dropTrailing (x : List (List Char)) :
    lenSum (dropTrailingWsChunk x) ≤ lenSum x := by
  rcases h : x.getLast? with _ | last <;>
    simp only [dropTrailingWsChunk, h]
  · exact le_rfl
  · by_cases hws : isWsChunk last = true
    · rw [if_pos hws]
      have hs : (x.dropLast.map List.length).Sublist (x.map List.length) :=
        (List.dropLast_sublist x).map _
      exact hs.sum_le_sum (fun a _ => Nat.zero_le a)
    · rw [if_neg hws]

theorem dropLeadingWsChunk_subset (x : List (List Char)) :
    ∀ ch ∈ dropLeadingWsChunk x, ch ∈ x := by
  intro ch hch
  rcases x with _ | ⟨c0, rest⟩ <;> simp only [dropLeadingWsChunk] at hch
  · exact hch
  · by_cases hws : isWsChunk c0 = true
    · rw [if_pos hws] at hch
      exact List.mem_cons_of_mem _ hch
    · rw [if_neg hws] at hch
      exact hch

theorem longWordAdjust_prop (P : Char → Prop) (w : Nat)
    (cur rest : List (List Char))
    (hcur : ∀ ch ∈ cur, ∀ c ∈ ch, P c)
    (hrest : ∀ ch ∈ rest, ∀ c ∈ ch, P c) :
    (∀ ch ∈ (longWordAdjust w cur rest).1, ∀ c ∈ ch, P c) ∧
    (∀ ch ∈ (longWordAdjust w cur rest).2, ∀ c ∈ ch, P c) := by
  rcases rest with _ | ⟨wd, rest2⟩
  · exact ⟨hcur, by intro ch hch; simp [longWordAdjust] at hch⟩
  · have hwd : ∀ c ∈ wd, P c := hrest wd (List.mem_cons_self _ _)
    have hrest2 : ∀ ch ∈ rest2, ∀ c ∈ ch, P c :=
      fun ch hch => hrest ch (List.mem_cons_of_mem _ hch)
    simp only [longWordAdjust]
    split
    · constructor
      · intro ch hch
        rcases List.mem_append.mp hch with h1 | h1
        · exact hcur ch h1
        · simp only [List.mem_singleton] at h1
          subst h1
          exact fun c hc => hwd c (List.take_subset _ _ hc)
      · intro ch hch
        rcases List.mem_cons.mp hch with rfl | h1
        · exact fun c hc => hwd c (List.drop_subset _ _ hc)
        · exact hrest2 ch h1
    · exact ⟨hcur, hrest⟩

theorem longWordAdjust_lenSum (w : Nat) (hw : 1 ≤ w)
    (cur rest : List (List Char)) (hcur : lenSum cur ≤ w) :
    lenSum (longWordAdjust w cur rest).1 ≤ w := by
  rcases rest with _ | ⟨wd, rest2⟩
  · simpa [longWordAdjust] using hcur
  · simp only [longWordAdjust]
    split
    · have hnw : ¬(w < 1) := by omega
      rw [if_neg hnw, lenSum_append, lenSum_cons]
      have h2 : (wd.take (w - lenSum cur)).length ≤ w - lenSum cur := by
        rw [List.length_take]
        omega
      have h0 : lenSum ([] : List (List Char)) = 0 := rfl
      rw [h0]
      omega
    · exact hcur

theorem lineSplit_prop (P : Char → Prop) (w : Nat) (chunks : List (List Char))
    (h : ∀ ch ∈ chunks, ∀ c ∈ ch, P c) :
    (∀ ch ∈ (lineSplit w chunks).1, ∀ c ∈ ch, P c) ∧
    (∀ ch ∈ (lineSplit w chunks).2, ∀ c ∈ ch, P c) := by
  obtain ⟨ha, hr⟩ := takeFit_prop P w 0 chunks h
  have hadj := longWordAdjust_prop P w _ _ ha hr
  simp only [lineSplit]
  exact ⟨fun ch hch => hadj.1 ch (dropTrailingWsChunk_subset _ ch hch), hadj.2⟩

theorem lineSplit_lenSum (w : Nat) (hw : 1 ≤ w) (chunks : List (List Char)) :
    lenSum (lineSplit w chunks).1 ≤ w := by
  have ha : lenSum (takeFit w 0 chunks).1 ≤ w := by
    rcases takeFit_lenSum w chunks 0 with h1 | h1
    · rw [h1]; simp [lenSum]
    · omega
  simp only [lineSplit]
  exact le_trans (lenSum_dropTrailing _) (longWordAdjust_lenSum w hw _ _ ha)

theorem wrapChunks_chars (P : Char → Prop) (w : Nat) :
    ∀ (fuel : Nat) (b : Bool) (chunks : List (List Char)),
      (∀ ch ∈ chunks, ∀ c ∈ ch, P c) →
      ∀ line ∈ wrapChunks w fuel b chunks, ∀ c ∈ line, P c := by
  intro fuel
  induction fuel with
  | zero => intro b chunks _ line hline; simp [wrapChunks] at hline
  | succ fuel ih =>
    intro b chunks h line hline
    rw [wrapChunks] at hline
    split at hline
    · simp at hline
    · rename_i c0 rest0 heq
      have h1 : ∀ ch ∈ c0 :: rest0, ∀ c ∈ ch, P c := by
        rw [← heq]
        split
        · intro ch hch; exact h ch (dropLeadingWsChunk_subset chunks ch hch)
        · exact h
      obtain ⟨hcur, hrest⟩ := lineSplit_prop P w (c0 :: rest0) h1
      by_cases hnil : (lineSplit w (c0 :: rest0)).1 = []
      · rw [if_pos hnil] at hline
        exact ih b _ hrest line hline
      · rw [if_neg hnil] at hline
        rcases List.mem_cons.mp hline with rfl | hline2
        · intro c hcc
          rcases List.mem_flatten.mp hcc with ⟨ch, hch, hcch⟩
          exact hcur ch hch c hcch
        · exact ih true _ hrest line hline2

theorem wrapChunks_length (w : Nat) (hw : 1 ≤ w) :
    ∀ (fuel : Nat) (b : Bool) (chunks : List (List Char)) (line : List Char),
      line ∈ wrapChunks w fuel b chunks → line.length ≤ w := by
  intro fuel
  induction fuel with
  | zero => intro b chunks line h; simp [wrapChunks] at h
  | succ fuel ih =>
    intro b chunks line hline
    rw [wrapChunks] at hline
    split at hline
    · simp at hline
    · rename_i c0 rest0 heq
      by_cases hnil : (lineSplit w (c0 :: rest0)).1 = []
      · rw [if_pos hnil] at hline
        exact ih b _ line hline
      · rw [if_neg hnil] at hline
        rcases List.mem_cons.mp hline with rfl | hline2
        · rw [List.length_flatten]
          exact lineSplit_lenSum w hw (c0 :: rest0)
        · exact ih true _ line hline2

theorem toChunks_chars : ∀ (l : List Char) (ch : List Char),
    ch ∈ toChunks l → ∀ c ∈ ch, c ∈ l := by
  intro l
  induction l with
  | nil => intro ch h; simp [toChunks] at h
  | cons a l ih =>
    intro ch hch c hc
    rw [toChunks] at hch
    split at hch
    · simp only [List.mem_singleton] at hch
      subst hch
      simp only [List.mem_singleton] at hc
      subst hc
      exact List.mem_cons_self _ _
    · rename_i gs heq
      have hsub : ∀ ch ∈ toChunks l, ∀ c ∈ ch, c ∈ l := ih
      rw [heq] at hsub
      rcases List.mem_cons.mp hch with rfl | hch2
      · simp only [List.mem_singleton] at hc
        subst hc
        exact List.mem_cons_self _ _
      · exact List.mem_cons_of_mem _ (hsub ch hch2 c hc)
    · rename_i d ds gs heq
      have hsub : ∀ ch ∈ toChunks l, ∀ c ∈ ch, c ∈ l := ih
      rw [heq] at hsub
      split at hch
      · rcases List.mem_cons.mp hch with rfl | hch2
        · rcases List.mem_cons.mp hc with rfl | hc2
          · exact List.mem_cons_self _ _
          · exact List.mem_cons_of_mem _
              (hsub (d :: ds) (List.mem_cons_self _ _) c hc2)
        · exact List.mem_cons_of_mem _
            (hsub ch (List.mem_cons_of_mem _ hch2) c hc)
      · rcases List.mem_cons.mp hch with rfl | hch2
        · simp only [List.mem_singleton] at hc
          subst hc
          exact List.mem_cons_self _ _
        · exact List.mem_cons_of_mem _ (hsub ch hch2 c hc)

theorem mungeWhitespace_no_newline (cs : List Char) :
    ∀ c ∈ mungeWhitespace cs, c ≠ '\n' := by
  intro c hc
  rcases List.mem_map.mp hc with ⟨d, _, rfl⟩
  by_cases h : pyIsSpace d = true
  · simp [h]
  · simp only [h, if_neg, Bool.false_eq_true, if_false]
    intro heq
    subst heq
    exact h (by decide)

theorem textwrapWrap_line (p line : List Char) (h : line ∈ textwrapWrap p) :
    '\n' ∉ line ∧ line.length ≤ 72 := by
  unfold textwrapWrap at h
  constructor
  · intro hc
    exact wrapChunks_chars (fun c => c ≠ '\n') 72 _ false _
      (fun ch hch c hcc =>
        mungeWhitespace_no_newline p c (toChunks_chars _ ch hch c hcc))
      line h '\n' hc rfl
  · exact wrapChunks_length 72 (by decide) _ false _ line h

theorem wrapOne_ne_nil (p : List Char) : wrapOne p ≠ [] := by
  cases h : textwrapWrap p <;> simp [wrapOne, h]

theorem wrapOne_line (p line : List Char) (h : line ∈ wrapOne p) :
    '\n' ∉ line ∧ line.length ≤ 72 := by
  unfold wrapOne at h
  rcases ht : textwrapWrap p with _ | ⟨l, ls⟩ <;> rw [ht] at h
  · simp only [List.mem_singleton] at h
    subst h
    exact ⟨by simp, by simp⟩
  · exact textwrapWrap_line p line (ht ▸ h)

theorem splitNl_ne_nil : ∀ cs : List Char, splitNl cs ≠ [] := by
  intro cs
  cases cs with
  | nil => simp [splitNl]
  | cons c rest =>
    rw [splitNl]
    split
    · simp
    · rcases h : splitNl rest with _ | ⟨p, ps⟩ <;> simp

theorem splitNl_no_nl : ∀ l : List Char, '\n' ∉ l → splitNl l = [l]
  | [], _ => rfl
  | c :: rest, h => by
    have hc : ¬(c = '\n') := fun hc => h (by simp [hc])
    rw [splitNl, if_neg hc,
      splitNl_no_nl rest (fun hm => h (List.mem_cons_of_mem _ hm))]

theorem splitNl_append_nl : ∀ (l t : List Char), '\n' ∉ l →
    splitNl (l ++ '\n' :: t) = l :: splitNl t
  | [], t, _ => by simp [splitNl]
  | c :: l, t, h => by
    have hc : ¬(c = '\n') := fun hc => h (by simp [hc])
    rw [List.cons_append, splitNl, if_neg hc,
      splitNl_append_nl l t (fun hm => h (List.mem_cons_of_mem _ hm))]

theorem splitNl_joinNl : ∀ ls : List (List Char), ls ≠ [] →
    (∀ l ∈ ls, '\n' ∉ l) → splitNl (joinNl ls) = ls
  | [], h, _ => absurd rfl h
  | [l], _, h => by
    rw [show joinNl [l] = l from rfl]
    exact splitNl_no_nl l (h l (List.mem_singleton.mpr rfl))
  | l :: l' :: ls, _, h => by
    rw [show joinNl (l :: l' :: ls) = l ++ '\n' :: joinNl (l' :: ls) from rfl,
      splitNl_append_nl l _ (h l (List.mem_cons_self _ _)),
      splitNl_joinNl (l' :: ls) (by simp)
        (fun x hx => h x (List.mem_cons_of_mem _ hx))]

/-- C8: wrapping splits the text on newline boundaries and reflows each
paragraph independently to 72 columns — the lines of the result are exactly
the concatenation, in paragraph order, of each paragraph's wrapped lines (so
paragraph count and relative order are preserved and no two paragraphs are
merged into one block), every paragraph contributes at least one line, an
empty paragraph stays a single empty line, and every produced line is free
of newlines and at most 72 characters wide. -/
theorem wrap_preserves_paragraphs (t : List Char) :
    splitNl (wrapParagraphsL t) = ((splitNl t).map wrapOne).flatten ∧
    (∀ p, wrapOne p ≠ []) ∧
    wrapOne [] = [[]] ∧
    (∀ p line, line ∈ wrapOne p → '\n' ∉ line ∧ line.length ≤ 72) := by
  refine ⟨?_, wrapOne_ne_nil, rfl, wrapOne_line⟩
  unfold wrapParagraphsL
  apply splitNl_joinNl
  · rcases h : splitNl t with _ | ⟨p, ps⟩
    · exact absurd h (splitNl_ne_nil t)
    · simp only [List.map_cons, List.flatten_cons]
      exact List.append_ne_nil_of_left_ne_nil (wrapOne_ne_nil p) _
  · intro l hl
    rcases List.mem_flatten.mp hl with ⟨m, hm, hlm⟩
    rcases List.mem_map.mp hm with ⟨p, _, rfl⟩
    exact (wrapOne_line p l hlm).1

/-- C8 witness: on a concrete text with an embedded blank line, the wrapped
lines decompose paragraph by paragraph, and a concrete produced line is
newline-free and within 72 columns. -/
theorem wrap_preserves_paragraphs_witness :
    splitNl (wrapParagraphsL "a\n\nbb".data) =
      ((splitNl "a\n\nbb".data).map wrapOne).flatten ∧
    wrapOne [] = [[]] ∧
    ('\n' ∉ ['b', 'b'] ∧ (['b', 'b'] : List Char).length ≤ 72) :=
  ⟨(wrap_preserves_paragraphs "a\n\nbb".data).1,
   (wrap_preserves_paragraphs "a\n\nbb".data).2.2.1,
   (wrap_preserves_paragraphs "a\n\nbb".data).2.2.2 "bb".data ['b', 'b']
     (by decide)⟩

theorem getLast?_mem {α : Type} {l : List α} {c : α} (h : l.getLast? = some c) :
    c ∈ l := by
  induction l with
  | nil => simp at h
  | cons a l ih =>
    rcases l with _ | ⟨b, l2⟩
    · simp at h; subst h; exact List.mem_cons_self _ _
    · rw [List.getLast?_cons_cons] at h
      exact List.mem_cons_of_mem _ (ih h)

theorem isAtomChar_not_atomend {c : Char} (h : isAtomChar c = true) :
    c ∉ pAtomends := by
  simp only [isAtomChar, Bool.and_eq_true, Bool.not_eq_true', decide_eq_false_iff_not] at h
  exact h.1.2

theorem isAtomChar_not_pyspace {c : Char} (h : isAtomChar c = true) :
    pyIsSpace c = false := by
  simp only [isAtomChar, Bool.and_eq_true, Bool.not_eq_true'] at h
  exact h.2

theorem isAtomChar_ascii {c : Char} (h : isAtomChar c = true) : c.toNat < 128 := by
  simp only [isAtomChar, Bool.and_eq_true, decide_eq_true_eq] at h
  exact h.1.1

theorem isAtomChar_ne {c x : Char} (h : isAtomChar c = true)
    (hx : x ∈ pAtomends) : c ≠ x :=
  fun he => isAtomChar_not_atomend h (he ▸ hx)

theorem phraseends_sub_atomends : ∀ c ∈ pPhraseends, c ∈ pAtomends := by decide

theorem fws_sub_atomends : ∀ c ∈ pFWS, c ∈ pAtomends := by decide

theorem lws_sub_atomends : ∀ c ∈ pLWS, c ∈ pAtomends := by decide

theorem isAtomChar_not_phraseend {c : Char} (h : isAtomChar c = true) :
    c ∉ pPhraseends :=
  fun hc => isAtomChar_not_atomend h (phraseends_sub_atomends c hc)

theorem isAtomChar_not_fws {c : Char} (h : isAtomChar c = true) : c ∉ pFWS :=
  fun hc => isAtomChar_not_atomend h (fws_sub_atomends c hc)

theorem isAtomChar_not_lws {c : Char} (h : isAtomChar c = true) : c ∉ pLWS :=
  fun hc => isAtomChar_not_atomend h (lws_sub_atomends c hc)

theorem isAddrSpecChar_cases {c : Char} (h : isAddrSpecChar c = true) :
    isAtomChar c = true ∨ c = '.' := by
  simp only [isAddrSpecChar, Bool.or_eq_true, beq_iff_eq] at h
  exact h

theorem isNameChar_atom {c : Char} (h : isNameChar c = true) :
    isAtomChar c = true ∧ c ≠ '\\' := by
  simp only [isNameChar, Bool.and_eq_true, Bool.not_eq_true', beq_eq_false_iff_ne] at h
  exact h

theorem getatom_run (ends : List Char) :
    ∀ (run rest : List Char), (∀ c ∈ run, c ∉ ends) →
      (∀ c, rest.head? = some c → c ∈ ends) →
      getatom ends (run ++ rest) = (run, rest) := by
  intro run
  induction run with
  | nil =>
    intro rest _ hrest
    cases rest with
    | nil => rfl
    | cons c r => simp [getatom, hrest c rfl]
  | cons c run' ih =>
    intro rest hrun hrest
    have hc : c ∉ ends := hrun c (List.mem_cons_self _ _)
    simp [getatom, hc,
      ih rest (fun d hd => hrun d (List.mem_cons_of_mem _ hd)) hrest]

theorem dropWhile_head_not (p : Char → Bool) :
    ∀ (l : List Char) (c : Char), (l.dropWhile p).head? = some c → p c = false := by
  intro l
  induction l with
  | nil => intro c h; simp at h
  | cons a l ih =>
    intro c h
    by_cases hp : p a = true
    · rw [List.dropWhile_cons, if_pos hp] at h
      exact ih c h
    · rw [List.dropWhile_cons, if_neg hp] at h
      simp at h
      subst h
      simpa using hp

theorem popTrailingWsElem_id (aslist : List (List Char))
    (h : ∀ e ∈ aslist, e.all pyIsSpace = false) :
    popTrailingWsElem aslist = aslist := by
  unfold popTrailingWsElem
  rcases hg : aslist.getLast? with _ | e
  · rfl
  · simp [h e (getLast?_mem hg)]

theorem gotonext_id (fuel : Nat) (st : PState)
    (h : ∀ c, st.rest.head? = some c → c ∉ pFWS ∧ c ≠ '(')
    (hfuel : 1 ≤ fuel) : gotonext fuel st = ([], st) := by
  cases fuel with
  | zero => omega
  | succ f =>
    cases hr : st.rest with
    | nil => simp [gotonext, hr]
    | cons c r =>
      obtain ⟨h1, h2⟩ := h c (by rw [hr]; rfl)
      simp [gotonext, hr, h1, h2]

theorem getdomainAux_run :
    ∀ (fuel : Nat) (dom rest acc : List Char) (cm : List (List Char)),
      (∀ c ∈ dom, isAddrSpecChar c = true) →
      (∀ c, rest.head? = some c →
        c ∈ pAtomends ∧ c ∉ pLWS ∧ c ≠ '(' ∧ c ≠ '[' ∧ c ≠ '.' ∧ c ≠ '@') →
      2 * dom.length + 1 ≤ fuel →
      getdomainAux fuel acc ⟨dom ++ rest, cm⟩ = (acc ++ dom, ⟨rest, cm⟩) := by
  intro fuel
  induction fuel with
  | zero => intro dom rest acc cm _ _ hf; omega
  | succ f ih =>
    intro dom rest acc cm hdom hrest hf
    cases dom with
    | nil =>
      cases hr : rest with
      | nil => simp [getdomainAux, hr]
      | cons c r =>
        obtain ⟨h1, h2, h3, h4, h5, h6⟩ := hrest c (by rw [hr]; rfl)
        simp [getdomainAux, hr, h2, h3, h4, h5, h6, h1]
    | cons c dom' =>
      rcases isAddrSpecChar_cases (hdom c (List.mem_cons_self _ _)) with hc | hc
      · -- an atom character: the parser consumes the maximal atom run
        have hPc : (!(decide (c ∈ pAtomends))) = true := by
          simp [isAtomChar_not_atomend hc]
        have htw := List.takeWhile_append_dropWhile
          (p := fun d => !(decide (d ∈ pAtomends))) (l := c :: dom')
        have hrun : (c :: dom').takeWhile (fun d => !(decide (d ∈ pAtomends))) =
            c :: dom'.takeWhile (fun d => !(decide (d ∈ pAtomends))) := by
          rw [List.takeWhile_cons, if_pos hPc]
        have hga : getatom pAtomends (c :: (dom' ++ rest)) =
            ((c :: dom').takeWhile (fun d => !(decide (d ∈ pAtomends))),
             (c :: dom').dropWhile (fun d => !(decide (d ∈ pAtomends))) ++ rest) := by
          rw [show c :: (dom' ++ rest) =
            (c :: dom').takeWhile (fun d => !(decide (d ∈ pAtomends))) ++
              ((c :: dom').dropWhile (fun d => !(decide (d ∈ pAtomends))) ++ rest) by
            rw [← List.append_assoc, htw, List.cons_append]]
          apply getatom_run
          · intro d hd
            have := List.mem_takeWhile_imp hd
            simpa using this
          · intro d hd
            cases hd2 : (c :: dom').dropWhile (fun d => !(decide (d ∈ pAtomends))) with
            | nil =>
              rw [hd2] at hd
              simp only [List.nil_append] at hd
              exact (hrest d hd).1
            | cons e es =>
              rw [hd2] at hd
              simp only [List.cons_append, List.head?_cons, Option.some.injEq] at hd
              have hP := dropWhile_head_not (fun d => !(decide (d ∈ pAtomends)))
                (c :: dom') e (by rw [hd2]; rfl)
              rw [← hd]
              simpa using hP
        have hc1 : c ∉ pLWS := isAtomChar_not_lws hc
        have hc2 : c ≠ '(' := isAtomChar_ne hc (by decide)
        have hc3 : c ≠ '[' := isAtomChar_ne hc (by decide)
        have hc4 : c ≠ '.' := isAtomChar_ne hc (by decide)
        have hc5 : c ≠ '@' := isAtomChar_ne hc (by decide)
        have hc6 : c ∉ pAtomends := isAtomChar_not_atomend hc
        have hstep : getdomainAux (f + 1) acc ⟨(c :: dom') ++ rest, cm⟩ =
            getdomainAux f
              (acc ++ (c :: dom').takeWhile (fun d => !(decide (d ∈ pAtomends))))
              ⟨(c :: dom').dropWhile (fun d => !(decide (d ∈ pAtomends))) ++ rest, cm⟩ := by
          simp only [getdomainAux, List.cons_append]
          simp [hc1, hc2, hc3, hc4, hc5, hc6, hga]
        have hsub : ∀ d ∈ (c :: dom').dropWhile (fun d => !(decide (d ∈ pAtomends))),
            isAddrSpecChar d = true := by
          intro d hd
          exact hdom d (by rw [← htw]; exact List.mem_append_right _ hd)
        have hlen : ((c :: dom').dropWhile
            (fun d => !(decide (d ∈ pAtomends)))).length ≤ dom'.length := by
          have hl := congrArg List.length htw
          rw [List.length_append, hrun] at hl
          simp only [List.length_cons] at hl
          omega
        rw [hstep, ih _ rest _ cm hsub hrest (by simp only [List.length_cons] at hf ⊢; omega)]
        rw [List.append_assoc, htw]
      · subst hc
        have hstep : getdomainAux (f + 1) acc ⟨('.' :: dom') ++ rest, cm⟩ =
            getdomainAux f (acc ++ ['.']) ⟨dom' ++ rest, cm⟩ := by
          simp [getdomainAux, show ¬('.' ∈ pLWS) from by decide]
        rw [hstep, ih dom' rest (acc ++ ['.']) cm
          (fun d hd => hdom d (List.mem_cons_of_mem _ hd)) hrest
          (by simp only [List.length_cons] at hf; omega)]
        simp

theorem getaddrspecLoop_run :
    ∀ (fuel : Nat) (lp rest : List Char) (aslist cm : List (List Char)),
      (∀ c ∈ lp, isAddrSpecChar c = true) →
      (∀ e ∈ aslist, e.all pyIsSpace = false) →
      (∀ c, rest.head? = some c →
        c ∈ pAtomends ∧ c ≠ '.' ∧ c ≠ '"' ∧ c ∉ pFWS ∧ c ≠ '(') →
      2 * lp.length + 1 ≤ fuel →
      ∃ elems, getaddrspecLoop fuel aslist ⟨lp ++ rest, cm⟩ =
          (aslist ++ elems, ⟨rest, cm⟩) ∧ elems.flatten = lp := by
  intro fuel
  induction fuel with
  | zero => intro lp rest aslist cm _ _ _ hf; omega
  | succ f ih =>
    intro lp rest aslist cm hlp hinv hrest hf
    cases lp with
    | nil =>
      cases hr : rest with
      | nil =>
        exact ⟨[], by simp [getaddrspecLoop, hr], rfl⟩
      | cons c r =>
        obtain ⟨h1, h2, h3, _, _⟩ := hrest c (by rw [hr]; rfl)
        refine ⟨[], ?_, rfl⟩
        simp [getaddrspecLoop, hr, h1, h2, h3, popTrailingWsElem_id aslist hinv]
    | cons c lp' =>
      have hnext : ∀ d, (lp' ++ rest).head? = some d → d ∉ pFWS ∧ d ≠ '(' := by
        intro d hd
        cases hlp2 : lp' with
        | nil =>
          rw [hlp2] at hd
          simp only [List.nil_append] at hd
          obtain ⟨_, _, _, h4, h5⟩ := hrest d hd
          exact ⟨h4, h5⟩
        | cons e es =>
          rw [hlp2] at hd
          simp only [List.cons_append, List.head?_cons, Option.some.injEq] at hd
          subst hd
          have hmem : e ∈ c :: lp' := by rw [hlp2]; simp
          rcases isAddrSpecChar_cases (hlp e hmem) with he | he
          · exact ⟨isAtomChar_not_fws he, isAtomChar_ne he (by decide)⟩
          · subst he; exact ⟨by decide, by decide⟩
      rcases isAddrSpecChar_cases (hlp c (List.mem_cons_self _ _)) with hc | hc
      · -- atom run
        have hPc : (!(decide (c ∈ pAtomends))) = true := by
          simp [isAtomChar_not_atomend hc]
        have htw := List.takeWhile_append_dropWhile
          (p := fun d => !(decide (d ∈ pAtomends))) (l := c :: lp')
        have hrun : (c :: lp').takeWhile (fun d => !(decide (d ∈ pAtomends))) =
            c :: lp'.takeWhile (fun d => !(decide (d ∈ pAtomends))) := by
          rw [List.takeWhile_cons, if_pos hPc]
        have hga : getatom pAtomends (c :: (lp' ++ rest)) =
            ((c :: lp').takeWhile (fun d => !(decide (d ∈ pAtomends))),
             (c :: lp').dropWhile (fun d => !(decide (d ∈ pAtomends))) ++ rest) := by
          rw [show c :: (lp' ++ rest) =
            (c :: lp').takeWhile (fun d => !(decide (d ∈ pAtomends))) ++
              ((c :: lp').dropWhile (fun d => !(decide (d ∈ pAtomends))) ++ rest) by
            rw [← List.append_assoc, htw, List.cons_append]]
          apply getatom_run
          · intro d hd
            have := List.mem_takeWhile_imp hd
            simpa using this
          · intro d hd
            cases hd2 : (c :: lp').dropWhile (fun d => !(decide (d ∈ pAtomends))) with
            | nil =>
              rw [hd2] at hd
              simp only [List.nil_append] at hd
              exact (hrest d hd).1
            | cons e es =>
              rw [hd2] at hd
              simp only [List.cons_append, List.head?_cons, Option.some.injEq] at hd
              have hP := dropWhile_head_not (fun d => !(decide (d ∈ pAtomends)))
                (c :: lp') e (by rw [hd2]; rfl)
              rw [← hd]
              simpa using hP
      -- head conditions of the remainder after the run
        have hdw : ∀ d, ((c :: lp').dropWhile (fun d => !(decide (d ∈ pAtomends)))
            ++ rest).head? = some d → d ∉ pFWS ∧ d ≠ '(' := by
          intro d hd
          cases hd2 : (c :: lp').dropWhile (fun d => !(decide (d ∈ pAtomends))) with
          | nil =>
            rw [hd2] at hd
            simp only [List.nil_append] at hd
            obtain ⟨_, _, _, h4, h5⟩ := hrest d hd
            exact ⟨h4, h5⟩
          | cons e es =>
            rw [hd2] at hd
            simp only [List.cons_append, List.head?_cons, Option.some.injEq] at hd
            have hmem : e ∈ c :: lp' := by
              rw [← htw, hd2]
              exact List.mem_append_right _ (List.mem_cons_self _ _)
            rcases isAddrSpecChar_cases (hlp e hmem) with he | he
            · rw [← hd]; exact ⟨isAtomChar_not_fws he, isAtomChar_ne he (by decide)⟩
            · rw [← hd]; subst he; exact ⟨by decide, by decide⟩
        have hc1 : c ≠ '.' := isAtomChar_ne hc (by decide)
        have hc2 : c ≠ '"' := isAtomChar_ne hc (by decide)
        have hc3 : c ∉ pAtomends := isAtomChar_not_atomend hc
        have hlen : ((c :: lp').dropWhile
            (fun d => !(decide (d ∈ pAtomends)))).length ≤ lp'.length := by
          have hl := congrArg List.length htw
          rw [List.length_append, hrun] at hl
          simp only [List.length_cons] at hl
          omega
        have hgn : gotonext f ⟨(c :: lp').dropWhile (fun d => !(decide (d ∈ pAtomends)))
            ++ rest, cm⟩ = ([], ⟨(c :: lp').dropWhile (fun d => !(decide (d ∈ pAtomends)))
            ++ rest, cm⟩) := by
          apply gotonext_id
          · exact hdw
          · simp only [List.length_cons] at hf; omega
        have hdrop : (c :: lp').dropWhile (fun d => !(decide (d ∈ pAtomends))) =
            lp'.dropWhile (fun d => !(decide (d ∈ pAtomends))) := by
          simp [List.dropWhile_cons, hPc]
        have hstep : getaddrspecLoop (f + 1) aslist ⟨(c :: lp') ++ rest, cm⟩ =
            getaddrspecLoop f
              (aslist ++ [(c :: lp').takeWhile (fun d => !(decide (d ∈ pAtomends)))])
              ⟨(c :: lp').dropWhile (fun d => !(decide (d ∈ pAtomends))) ++ rest, cm⟩ := by
          rw [hdrop] at hgn
          simp only [getaddrspecLoop, List.cons_append]
          simp [hc1, hc2, hc3, hga, hgn, hdrop]
        have hsub : ∀ d ∈ (c :: lp').dropWhile (fun d => !(decide (d ∈ pAtomends))),
            isAddrSpecChar d = true := by
          intro d hd
          exact hlp d (by rw [← htw]; exact List.mem_append_right _ hd)
        have hinv2 : ∀ e ∈ aslist ++
            [(c :: lp').takeWhile (fun d => !(decide (d ∈ pAtomends)))],
            e.all pyIsSpace = false := by
          intro e he
          rcases List.mem_append.mp he with he | he
          · exact hinv e he
          · simp only [List.mem_singleton] at he
            subst he
            rw [hrun]
            simp [isAtomChar_not_pyspace hc]
        obtain ⟨elems, heq, hfl⟩ := ih
          ((c :: lp').dropWhile (fun d => !(decide (d ∈ pAtomends)))) rest
          (aslist ++ [(c :: lp').takeWhile (fun d => !(decide (d ∈ pAtomends)))]) cm
          hsub hinv2 hrest (by simp only [List.length_cons] at hf; omega)
        refine ⟨(c :: lp').takeWhile (fun d => !(decide (d ∈ pAtomends))) :: elems,
          ?_, ?_⟩
        · rw [hstep, heq, List.append_assoc]
          simp
        · simp only [List.flatten_cons, hfl]
          exact htw
      · -- c = '.'
        subst hc
        have hgn : gotonext f ⟨lp' ++ rest, cm⟩ = ([], ⟨lp' ++ rest, cm⟩) := by
          apply gotonext_id
          · exact hnext
          · simp only [List.length_cons] at hf; omega
        have hstep : getaddrspecLoop (f + 1) aslist ⟨('.' :: lp') ++ rest, cm⟩ =
            getaddrspecLoop f (aslist ++ [['.']]) ⟨lp' ++ rest, cm⟩ := by
          simp only [getaddrspecLoop, List.cons_append]
          simp [hgn, popTrailingWsElem_id aslist hinv]
        have hinv2 : ∀ e ∈ aslist ++ [['.']], e.all pyIsSpace = false := by
          intro e he
          rcases List.mem_append.mp he with he | he
          · exact hinv e he
          · simp only [List.mem_singleton] at he
            subst he
            decide
        obtain ⟨elems, heq, hfl⟩ := ih lp' rest (aslist ++ [['.']]) cm
          (fun d hd => hlp d (List.mem_cons_of_mem _ hd)) hinv2 hrest
          (by simp only [List.length_cons] at hf; omega)
        refine ⟨['.'] :: elems, ?_, ?_⟩
        · rw [hstep, heq, List.append_assoc]
          simp
        · simp [hfl]

theorem lws_sub_fws : ∀ c ∈ pLWS, c ∈ pFWS := by decide

theorem getphraselist_stop (fuel : Nat) (st : PState)
    (h : ∀ c, st.rest.head? = some c →
      c ∈ pPhraseends ∧ c ∉ pFWS ∧ c ≠ '"' ∧ c ≠ '(')
    (hfuel : 1 ≤ fuel) : getphraselist fuel st = ([], st) := by
  cases fuel with
  | zero => omega
  | succ f =>
    cases hr : st.rest with
    | nil => simp [getphraselist, hr]
    | cons c r =>
      obtain ⟨h1, h2, h3, h4⟩ := h c (by rw [hr]; rfl)
      simp [getphraselist, hr, h1, h2, h3, h4]

theorem isAddrSpecChar_head {c : Char} (h : isAddrSpecChar c = true) :
    c ∉ pPhraseends ∧ c ∉ pFWS ∧ c ≠ '"' ∧ c ≠ '(' ∧ c ≠ '<' ∧ c ≠ '>' ∧
      c ≠ ':' ∧ c ≠ '@' := by
  rcases isAddrSpecChar_cases h with hc | hc
  · exact ⟨isAtomChar_not_phraseend hc, isAtomChar_not_fws hc,
      isAtomChar_ne hc (by decide), isAtomChar_ne hc (by decide),
      isAtomChar_ne hc (by decide), isAtomChar_ne hc (by decide),
      isAtomChar_ne hc (by decide), isAtomChar_ne hc (by decide)⟩
  · subst hc
    exact ⟨by decide, by decide, by decide, by decide, by decide, by decide,
      by decide, by decide⟩

theorem addrspec_notin_phraseends {lp : List Char}
    (hlp : ∀ c ∈ lp, isAddrSpecChar c = true) : ∀ c ∈ lp, c ∉ pPhraseends :=
  fun c hc => (isAddrSpecChar_head (hlp c hc)).1

theorem getphraselist_atomrun (fuel : Nat) (run rest : List Char)
    (cm : List (List Char)) (hne : run ≠ [])
    (hrun : ∀ c ∈ run, isAddrSpecChar c = true)
    (hrest : ∀ c, rest.head? = some c →
      c ∈ pPhraseends ∧ c ∉ pFWS ∧ c ≠ '"' ∧ c ≠ '(')
    (hfuel : 2 ≤ fuel) :
    getphraselist fuel ⟨run ++ rest, cm⟩ = ([run], ⟨rest, cm⟩) := by
  cases fuel with
  | zero => omega
  | succ f =>
    cases run with
    | nil => exact absurd rfl hne
    | cons c run' =>
      obtain ⟨h1, h2, h3, h4, _, _, _, _⟩ :=
        isAddrSpecChar_head (hrun c (List.mem_cons_self _ _))
      have hga : getatom pPhraseends ((c :: run') ++ rest) =
          (c :: run', rest) :=
        getatom_run pPhraseends (c :: run') rest
          (addrspec_notin_phraseends hrun) (fun d hd => (hrest d hd).1)
      have hrec : getphraselist f ⟨rest, cm⟩ = ([], ⟨rest, cm⟩) :=
        getphraselist_stop f ⟨rest, cm⟩ hrest (by omega)
      simp only [List.cons_append] at hga
      simp [getphraselist, h1, h2, h3, h4, hga, hrec]

theorem getphraselist_words :
    ∀ (ws : List (List Char)) (fuel : Nat) (rest : List Char)
      (cm : List (List Char)), ws ≠ [] →
      (∀ w ∈ ws, w ≠ [] ∧ ∀ c ∈ w, isAddrSpecChar c = true) →
      (∀ c, rest.head? = some c →
        c ∈ pPhraseends ∧ c ∉ pFWS ∧ c ≠ '"' ∧ c ≠ '(') →
      2 * ws.length + 2 ≤ fuel →
      getphraselist fuel ⟨spaceJoinL ws ++ ' ' :: rest, cm⟩ =
        (ws, ⟨rest, cm⟩) := by
  intro ws
  induction ws with
  | nil => intro fuel rest cm hne; exact absurd rfl hne
  | cons w ws' ih =>
    intro fuel rest cm _ hws hrest hf
    obtain ⟨hwne, hwch⟩ := hws w (List.mem_cons_self _ _)
    cases ws' with
    | nil =>
      cases w with
      | nil => exact absurd rfl hwne
      | cons c w' =>
        cases fuel with
        | zero => simp only [List.length_cons, List.length_nil] at hf; omega
        | succ f =>
        cases f with
        | zero => simp only [List.length_cons, List.length_nil] at hf; omega
        | succ g =>
        obtain ⟨h1, h2, h3, h4, _, _, _, _⟩ :=
          isAddrSpecChar_head (hwch c (List.mem_cons_self _ _))
        have hsp : ∀ d : Char, (' ' :: rest).head? = some d → d ∈ pPhraseends := by
          intro d hd
          simp only [List.head?_cons, Option.some.injEq] at hd
          rw [← hd]; decide
        have hga : getatom pPhraseends ((c :: w') ++ ' ' :: rest) =
            (c :: w', ' ' :: rest) :=
          getatom_run pPhraseends (c :: w') (' ' :: rest)
            (addrspec_notin_phraseends hwch) hsp
        have hstop : getphraselist g ⟨rest, cm⟩ = ([], ⟨rest, cm⟩) :=
          getphraselist_stop g ⟨rest, cm⟩ hrest
            (by simp only [List.length_cons, List.length_nil] at hf; omega)
        simp only [List.cons_append] at hga
        simp [getphraselist, spaceJoinL, h1, h2, h3, h4, hga, hstop,
          show (' ' ∈ pFWS) from by decide]
    | cons w2 ws'' =>
      cases w with
      | nil => exact absurd rfl hwne
      | cons c w' =>
        cases fuel with
        | zero => simp only [List.length_cons] at hf; omega
        | succ f =>
        cases f with
        | zero => simp only [List.length_cons] at hf; omega
        | succ g =>
        obtain ⟨h1, h2, h3, h4, _, _, _, _⟩ :=
          isAddrSpecChar_head (hwch c (List.mem_cons_self _ _))
        have hsp : ∀ d : Char,
            (' ' :: (spaceJoinL (w2 :: ws'') ++ ' ' :: rest)).head? = some d →
              d ∈ pPhraseends := by
          intro d hd
          simp only [List.head?_cons, Option.some.injEq] at hd
          rw [← hd]; decide
        have hga : getatom pPhraseends
            ((c :: w') ++ ' ' :: (spaceJoinL (w2 :: ws'') ++ ' ' :: rest)) =
            (c :: w', ' ' :: (spaceJoinL (w2 :: ws'') ++ ' ' :: rest)) :=
          getatom_run pPhraseends (c :: w') _
            (addrspec_notin_phraseends hwch) hsp
        have hih : getphraselist g
            ⟨spaceJoinL (w2 :: ws'') ++ ' ' :: rest, cm⟩ =
            (w2 :: ws'', ⟨rest, cm⟩) :=
          ih g rest cm (by simp)
            (fun v hv => hws v (List.mem_cons_of_mem _ hv)) hrest
            (by simp only [List.length_cons] at hf ⊢; omega)
        have hjoin : spaceJoinL ((c :: w') :: w2 :: ws'') ++ ' ' :: rest =
            (c :: w') ++ (' ' :: (spaceJoinL (w2 :: ws'') ++ ' ' :: rest)) := by
          show ((c :: w') ++ ' ' :: spaceJoinL (w2 :: ws'')) ++ ' ' :: rest = _
          simp
        rw [hjoin]
        simp only [List.cons_append] at hga
        simp [getphraselist, h1, h2, h3, h4, hga, hih,
          show (' ' ∈ pFWS) from by decide]

theorem getaddrspec_run (fuel : Nat) (lp dom rest : List Char)
    (cm : List (List Char))
    (hlp : ∀ c ∈ lp, isAddrSpecChar c = true)
    (hdom : ∀ c ∈ dom, isAddrSpecChar c = true)
    (hdomne : dom ≠ [])
    (hrest : ∀ c, rest.head? = some c →
      c ∈ pAtomends ∧ c ∉ pFWS ∧ c ≠ '(' ∧ c ≠ '[' ∧ c ≠ '.' ∧ c ≠ '@' ∧
        c ≠ '"')
    (hf : 2 * lp.length + 2 * dom.length + 2 ≤ fuel) :
    getaddrspec fuel ⟨lp ++ '@' :: (dom ++ rest), cm⟩ =
      (lp ++ '@' :: dom, ⟨rest, cm⟩) := by
  cases fuel with
  | zero => omega
  | succ f =>
  have hgn1 : gotonext f ⟨lp ++ '@' :: (dom ++ rest), cm⟩ =
      ([], ⟨lp ++ '@' :: (dom ++ rest), cm⟩) := by
    apply gotonext_id _ _ _ (by omega)
    intro c hc
    cases lp with
    | nil =>
      simp only [List.nil_append, List.head?_cons, Option.some.injEq] at hc
      rw [← hc]
      exact ⟨by decide, by decide⟩
    | cons e lp' =>
      simp only [List.cons_append, List.head?_cons, Option.some.injEq] at hc
      obtain ⟨_, hb, _, hd, _, _, _, _⟩ :=
        isAddrSpecChar_head (hlp e (List.mem_cons_self _ _))
      rw [← hc]
      exact ⟨hb, hd⟩
  have hat : ∀ c : Char, ('@' :: (dom ++ rest)).head? = some c →
      c ∈ pAtomends ∧ c ≠ '.' ∧ c ≠ '"' ∧ c ∉ pFWS ∧ c ≠ '(' := by
    intro c hc
    simp only [List.head?_cons, Option.some.injEq] at hc
    rw [← hc]
    exact ⟨by decide, by decide, by decide, by decide, by decide⟩
  obtain ⟨elems, heq, hfl⟩ := getaddrspecLoop_run f lp ('@' :: (dom ++ rest))
    [] cm hlp (by intro e he; simp at he) hat (by omega)
  have hgn2 : gotonext f ⟨dom ++ rest, cm⟩ = ([], ⟨dom ++ rest, cm⟩) := by
    apply gotonext_id _ _ _ (by omega)
    intro c hc
    cases dom with
    | nil =>
      simp only [List.nil_append] at hc
      obtain ⟨_, hb, hd, _, _, _, _⟩ := hrest c hc
      exact ⟨hb, hd⟩
    | cons e dom' =>
      simp only [List.cons_append, List.head?_cons, Option.some.injEq] at hc
      obtain ⟨_, hb, _, hd, _, _, _, _⟩ :=
        isAddrSpecChar_head (hdom e (List.mem_cons_self _ _))
      rw [← hc]
      exact ⟨hb, hd⟩
  have hdomrest : ∀ c : Char, rest.head? = some c →
      c ∈ pAtomends ∧ c ∉ pLWS ∧ c ≠ '(' ∧ c ≠ '[' ∧ c ≠ '.' ∧ c ≠ '@' := by
    intro c hc
    obtain ⟨ha, hb, hc2, hd, he, hf2, _⟩ := hrest c hc
    exact ⟨ha, fun hm => hb (lws_sub_fws c hm), hc2, hd, he, hf2⟩
  have hdr : getdomainAux f [] ⟨dom ++ rest, cm⟩ = (dom, ⟨rest, cm⟩) := by
    have := getdomainAux_run f dom rest [] cm hdom hdomrest (by omega)
    simpa using this
  rw [show lp ++ '@' :: (dom ++ rest) = lp ++ ('@' :: (dom ++ rest)) from rfl]
  simp [getaddrspec, hgn1, heq, hgn2, hdr, hdomne, hfl]

theorem getrouteaddr_run (fuel : Nat) (lp dom rest2 : List Char)
    (cm : List (List Char))
    (hlp : ∀ c ∈ lp, isAddrSpecChar c = true) (hlpne : lp ≠ [])
    (hdom : ∀ c ∈ dom, isAddrSpecChar c = true) (hdomne : dom ≠ [])
    (hf : 2 * lp.length + 2 * dom.length + 6 ≤ fuel) :
    getrouteaddr fuel ⟨'<' :: (lp ++ '@' :: (dom ++ '>' :: rest2)), cm⟩ =
      (lp ++ '@' :: dom, ⟨rest2, cm⟩) := by
  cases fuel with
  | zero => omega
  | succ f =>
  cases f with
  | zero => omega
  | succ g =>
  cases lp with
  | nil => exact absurd rfl hlpne
  | cons c lp' =>
  obtain ⟨_, hb, _, hd, hlt, hgt, hcol, hat⟩ :=
    isAddrSpecChar_head (hlp c (List.mem_cons_self _ _))
  have hgn : gotonext (g + 1) ⟨(c :: lp') ++ '@' :: (dom ++ '>' :: rest2), cm⟩ =
      ([], ⟨(c :: lp') ++ '@' :: (dom ++ '>' :: rest2), cm⟩) := by
    apply gotonext_id _ _ _ (by omega)
    intro d hdh
    simp only [List.cons_append, List.head?_cons, Option.some.injEq] at hdh
    rw [← hdh]
    exact ⟨hb, hd⟩
  have hrest : ∀ d : Char, ('>' :: rest2).head? = some d →
      d ∈ pAtomends ∧ d ∉ pFWS ∧ d ≠ '(' ∧ d ≠ '[' ∧ d ≠ '.' ∧ d ≠ '@' ∧
        d ≠ '"' := by
    intro d hdh
    simp only [List.head?_cons, Option.some.injEq] at hdh
    rw [← hdh]
    exact ⟨by decide, by decide, by decide, by decide, by decide, by decide,
      by decide⟩
  have has : getaddrspec g ⟨(c :: lp') ++ '@' :: (dom ++ '>' :: rest2), cm⟩ =
      ((c :: lp') ++ '@' :: dom, ⟨'>' :: rest2, cm⟩) :=
    getaddrspec_run g (c :: lp') dom ('>' :: rest2) cm hlp hdom hdomne
      hrest (by simp only [List.length_cons] at hf ⊢; omega)
  simp only [List.cons_append] at hgn has ⊢
  simp [getrouteaddr, routeLoop, hgn, hgt, hat, hcol, has]

theorem mem_spaceJoinL {c : Char} :
    ∀ {ws : List (List Char)}, c ∈ spaceJoinL ws →
      (∃ w ∈ ws, c ∈ w) ∨ c = ' ' := by
  intro ws
  induction ws with
  | nil => intro h; simp [spaceJoinL] at h
  | cons w ws' ih =>
    intro h
    cases ws' with
    | nil =>
      left
      exact ⟨w, List.mem_cons_self _ _, h⟩
    | cons w2 ws'' =>
      have h2 : c ∈ w ++ ' ' :: spaceJoinL (w2 :: ws'') := h
      rcases List.mem_append.mp h2 with hw | hs
      · exact Or.inl ⟨w, List.mem_cons_self _ _, hw⟩
      · rcases List.mem_cons.mp hs with hsp | hrec
        · exact Or.inr hsp
        · rcases ih hrec with ⟨v, hv, hcv⟩ | hsp
          · exact Or.inl ⟨v, List.mem_cons_of_mem _ hv, hcv⟩
          · exact Or.inr hsp

theorem spaceJoinL_ne_nil (ws : List (List Char)) (hne : ws ≠ [])
    (hw : ∀ w ∈ ws, w ≠ []) : spaceJoinL ws ≠ [] := by
  cases ws with
  | nil => exact absurd rfl hne
  | cons w ws' =>
    cases ws' with
    | nil => exact hw w (List.mem_cons_self _ _)
    | cons w2 ws'' =>
      show w ++ ' ' :: spaceJoinL (w2 :: ws'') ≠ []
      simp

theorem spaceJoinL_length_ge :
    ∀ (ws : List (List Char)), (∀ w ∈ ws, w ≠ []) →
      ws.length ≤ (spaceJoinL ws).length := by
  intro ws
  induction ws with
  | nil => intro _; simp [spaceJoinL]
  | cons w ws' ih =>
    intro hw
    have hwlen : 1 ≤ w.length := by
      have := hw w (List.mem_cons_self _ _)
      cases w with
      | nil => exact absurd rfl this
      | cons a b => simp
    cases ws' with
    | nil => simpa [spaceJoinL] using hwlen
    | cons w2 ws'' =>
      have hih := ih (fun v hv => hw v (List.mem_cons_of_mem _ hv))
      show (w :: w2 :: ws'').length ≤ (w ++ ' ' :: spaceJoinL (w2 :: ws'')).length
      simp only [List.length_cons, List.length_append] at hih ⊢
      omega

theorem spaceJoinL_head (c : Char) (w' : List Char) (ws' : List (List Char))
    (tail : List Char) :
    (spaceJoinL ((c :: w') :: ws') ++ tail).head? = some c := by
  cases ws' with
  | nil => simp [spaceJoinL]
  | cons w2 ws'' =>
    show (((c :: w') ++ ' ' :: spaceJoinL (w2 :: ws'')) ++ tail).head? = some c
    simp

theorem getaddress_bare (fuel : Nat) (lp dom : List Char)
    (cm0 : List (List Char))
    (hlp : ∀ c ∈ lp, isAddrSpecChar c = true) (hlpne : lp ≠ [])
    (hdom : ∀ c ∈ dom, isAddrSpecChar c = true) (hdomne : dom ≠ [])
    (hf : 2 * lp.length + 2 * dom.length + 8 ≤ fuel) :
    getaddress fuel ⟨lp ++ '@' :: dom, cm0⟩ =
      ([(([] : List Char), lp ++ '@' :: dom)], ⟨[], []⟩) := by
  cases fuel with
  | zero => omega
  | succ f =>
  cases lp with
  | nil => exact absurd rfl hlpne
  | cons c lp' =>
  obtain ⟨_, hb, _, hd, _, _, _, _⟩ :=
    isAddrSpecChar_head (hlp c (List.mem_cons_self _ _))
  have hgnA : gotonext f ⟨(c :: lp') ++ '@' :: dom, []⟩ =
      ([], ⟨(c :: lp') ++ '@' :: dom, []⟩) := by
    apply gotonext_id _ _ _ (by omega)
    intro d hdh
    simp only [List.cons_append, List.head?_cons, Option.some.injEq] at hdh
    rw [← hdh]
    exact ⟨hb, hd⟩
  have hpl : getphraselist f ⟨(c :: lp') ++ '@' :: dom, []⟩ =
      ([c :: lp'], ⟨'@' :: dom, []⟩) := by
    apply getphraselist_atomrun f (c :: lp') ('@' :: dom) [] (by simp) hlp
      ?_ (by omega)
    intro d hdh
    simp only [List.head?_cons, Option.some.injEq] at hdh
    rw [← hdh]
    exact ⟨by decide, by decide, by decide, by decide⟩
  have hgnC : gotonext f ⟨'@' :: dom, []⟩ = ([], ⟨'@' :: dom, []⟩) := by
    apply gotonext_id _ _ _ (by omega)
    intro d hdh
    simp only [List.head?_cons, Option.some.injEq] at hdh
    rw [← hdh]
    exact ⟨by decide, by decide⟩
  have has : getaddrspec f ⟨(c :: lp') ++ '@' :: dom, []⟩ =
      ((c :: lp') ++ '@' :: dom, ⟨[], []⟩) := by
    have h := getaddrspec_run f (c :: lp') dom [] [] hlp hdom hdomne
      (by intro d hdh; simp at hdh)
      (by simp only [List.length_cons] at hf ⊢; omega)
    simpa using h
  have hgnE : gotonext f ⟨[], []⟩ = ([], ⟨[], []⟩) := by
    apply gotonext_id _ _ _ (by omega)
    intro d hdh
    simp at hdh
  simp only [List.cons_append] at hgnA hpl has ⊢
  simp [getaddress, hgnA, hpl, hgnC, has, hgnE, spaceJoinL]

theorem getaddress_named (fuel : Nat) (ws : List (List Char))
    (lp dom : List Char) (cm0 : List (List Char))
    (hws : ws ≠ [])
    (hwords : ∀ w ∈ ws, w ≠ [] ∧ ∀ c ∈ w, isAddrSpecChar c = true)
    (hlp : ∀ c ∈ lp, isAddrSpecChar c = true) (hlpne : lp ≠ [])
    (hdom : ∀ c ∈ dom, isAddrSpecChar c = true) (hdomne : dom ≠ [])
    (hf : 2 * ws.length + 2 * lp.length + 2 * dom.length + 10 ≤ fuel) :
    getaddress fuel
      ⟨spaceJoinL ws ++ ' ' :: '<' :: (lp ++ '@' :: (dom ++ ['>'])), cm0⟩ =
      ([(spaceJoinL ws, lp ++ '@' :: dom)], ⟨[], []⟩) := by
  cases fuel with
  | zero => omega
  | succ f =>
  cases ws with
  | nil => exact absurd rfl hws
  | cons w ws' =>
  obtain ⟨hwne, hwch⟩ := hwords w (List.mem_cons_self _ _)
  cases w with
  | nil => exact absurd rfl hwne
  | cons c w' =>
  obtain ⟨_, hb, _, hd, _, _, _, _⟩ :=
    isAddrSpecChar_head (hwch c (List.mem_cons_self _ _))
  have hgnA : gotonext f
      ⟨spaceJoinL ((c :: w') :: ws') ++
        ' ' :: '<' :: (lp ++ '@' :: (dom ++ ['>'])), []⟩ =
      ([], ⟨spaceJoinL ((c :: w') :: ws') ++
        ' ' :: '<' :: (lp ++ '@' :: (dom ++ ['>'])), []⟩) := by
    apply gotonext_id _ _ _ (by omega)
    intro d hdh
    rw [spaceJoinL_head c w' ws' _] at hdh
    simp only [Option.some.injEq] at hdh
    rw [← hdh]
    exact ⟨hb, hd⟩
  have hpl : getphraselist f
      ⟨spaceJoinL ((c :: w') :: ws') ++
        ' ' :: ('<' :: (lp ++ '@' :: (dom ++ ['>']))), []⟩ =
      ((c :: w') :: ws', ⟨'<' :: (lp ++ '@' :: (dom ++ ['>'])), []⟩) := by
    apply getphraselist_words ((c :: w') :: ws') f _ [] (by simp) hwords
      ?_ (by simp only [List.length_cons] at hf ⊢; omega)
    intro d hdh
    simp only [List.head?_cons, Option.some.injEq] at hdh
    rw [← hdh]
    exact ⟨by decide, by decide, by decide, by decide⟩
  have hgnC : gotonext f ⟨'<' :: (lp ++ '@' :: (dom ++ ['>'])), []⟩ =
      ([], ⟨'<' :: (lp ++ '@' :: (dom ++ ['>'])), []⟩) := by
    apply gotonext_id _ _ _ (by omega)
    intro d hdh
    simp only [List.head?_cons, Option.some.injEq] at hdh
    rw [← hdh]
    exact ⟨by decide, by decide⟩
  have hra : getrouteaddr f ⟨'<' :: (lp ++ '@' :: (dom ++ ['>'])), []⟩ =
      (lp ++ '@' :: dom, ⟨[], []⟩) := by
    have h := getrouteaddr_run f lp dom [] [] hlp hlpne hdom hdomne
      (by simp only [List.length_cons] at hf ⊢; omega)
    simpa using h
  have hgnE : gotonext f ⟨[], []⟩ = ([], ⟨[], []⟩) := by
    apply gotonext_id _ _ _ (by omega)
    intro d hdh
    simp at hdh
  simp [getaddress, hgnA, hpl, hgnC, hra, hgnE]

theorem getaddrlistLoop_single (fuel : Nat) (s : List Char)
    (pair : List Char × List Char) (hs : s ≠ []) (hfuel : 2 ≤ fuel)
    (h : getaddress (fuel - 1) ⟨s, []⟩ = ([pair], ⟨[], []⟩)) :
    getaddrlistLoop fuel [] ⟨s, []⟩ = ([pair], ⟨[], []⟩) := by
  cases fuel with
  | zero => omega
  | succ f =>
  cases f with
  | zero => omega
  | succ g =>
  cases s with
  | nil => exact absurd rfl hs
  | cons c s' =>
  have h2 : getaddress (g + 1) ⟨c :: s', []⟩ = ([pair], ⟨[], []⟩) := h
  simp [getaddrlistLoop, h2]

theorem isNameChar_not_special {c : Char} (h : isNameChar c = true) :
    c ∉ formataddrSpecials := by
  obtain ⟨ha, hb⟩ := isNameChar_atom h
  intro hm
  have hsub : ∀ d ∈ formataddrSpecials, d ∈ pAtomends ∨ d = '\\' := by decide
  rcases hsub c hm with hd | hd
  · exact isAtomChar_not_atomend ha hd
  · exact hb hd

theorem getaddressesL_bare (lp dom : List Char)
    (hlp : ∀ c ∈ lp, isAddrSpecChar c = true) (hlpne : lp ≠ [])
    (hdom : ∀ c ∈ dom, isAddrSpecChar c = true) (hdomne : dom ≠ []) :
    getaddressesL (lp ++ '@' :: dom) =
      [(([] : List Char), lp ++ '@' :: dom)] := by
  have hlen : (lp ++ '@' :: dom).length = lp.length + dom.length + 1 := by
    simp only [List.length_append, List.length_cons]
    omega
  have hF : 32 * (lp ++ '@' :: dom).length + 256 ≤
      ((lp ++ '@' :: dom).length + 16) * ((lp ++ '@' :: dom).length + 16) := by
    have h1 : ((lp ++ '@' :: dom).length + 16) *
        ((lp ++ '@' :: dom).length + 16) =
        (lp ++ '@' :: dom).length * (lp ++ '@' :: dom).length +
          (32 * (lp ++ '@' :: dom).length + 256) := by ring
    rw [h1]
    exact Nat.le_add_left _ _
  simp only [getaddressesL]
  rw [getaddrlistLoop_single _ _ (([] : List Char), lp ++ '@' :: dom)
    (by simp) (by omega)
    (getaddress_bare _ lp dom [] hlp hlpne hdom hdomne (by omega))]

theorem getaddressesL_named (ws : List (List Char)) (lp dom : List Char)
    (hws : ws ≠ [])
    (hwords : ∀ w ∈ ws, w ≠ [] ∧ ∀ c ∈ w, isAddrSpecChar c = true)
    (hlp : ∀ c ∈ lp, isAddrSpecChar c = true) (hlpne : lp ≠ [])
    (hdom : ∀ c ∈ dom, isAddrSpecChar c = true) (hdomne : dom ≠ []) :
    getaddressesL
        (spaceJoinL ws ++ ' ' :: '<' :: (lp ++ '@' :: (dom ++ ['>']))) =
      [(spaceJoinL ws, lp ++ '@' :: dom)] := by
  have hwlen : ws.length ≤ (spaceJoinL ws).length :=
    spaceJoinL_length_ge ws (fun w hw => (hwords w hw).1)
  have hlen : (spaceJoinL ws ++ ' ' :: '<' ::
      (lp ++ '@' :: (dom ++ ['>']))).length =
      (spaceJoinL ws).length + lp.length + dom.length + 4 := by
    simp only [List.length_append, List.length_cons, List.length_nil]
    omega
  have hF : 32 * (spaceJoinL ws ++ ' ' :: '<' ::
      (lp ++ '@' :: (dom ++ ['>']))).length + 256 ≤
      ((spaceJoinL ws ++ ' ' :: '<' ::
        (lp ++ '@' :: (dom ++ ['>']))).length + 16) *
      ((spaceJoinL ws ++ ' ' :: '<' ::
        (lp ++ '@' :: (dom ++ ['>']))).length + 16) := by
    have h1 : ∀ m : Nat, (m + 16) * (m + 16) = m * m + (32 * m + 256) :=
      fun m => by ring
    rw [h1]
    exact Nat.le_add_left _ _
  simp only [getaddressesL]
  rw [getaddrlistLoop_single _ _ (spaceJoinL ws, lp ++ '@' :: dom)
    (by simp) (by omega)
    (getaddress_named _ ws lp dom [] hws hwords hlp hlpne hdom hdomne
      (by omega))]

/-- C7: `MailAddress.parse` on a string fails — with the error the spec
names `MalformedAddressError`, the model of the `ValueError` raised by the
tuple unpacking `((name, mail),) = getaddresses([addr])` — exactly when the
`getaddresses` model extracts a number of mailboxes different from one
(zero, or two or more). -/
theorem parse_fails_iff_not_single (s : String) :
    MailAddress.parseStr s = .error .malformedAddress ↔
      (getaddressesL s.data).length ≠ 1 := by
  unfold MailAddress.parseStr
  rcases h : getaddressesL s.data with _ | ⟨⟨name, mail⟩, rest⟩
  · simp
  · cases rest with
    | nil => by_cases hn : name = [] <;> simp [hn]
    | cons p ps => simp

/-- C6: the parse/encode round-trip.  For an address whose mailbox is a
well-formed `local@domain` of atom characters and dots and whose display
name, when present, is made of atom words joined by single spaces (the
shapes that survive the parser's whitespace canonicalization — the "valid
single-mailbox strings modulo insignificant whitespace"), re-parsing the
encoding restores the address exactly.  In addition, an address without a
display name encodes to the bare mailbox (no angle-bracket form), and any
parse that extracts an empty display name normalizes it to `none`. -/
theorem parse_encode_roundtrip (a : MailAddress)
    (hm : ValidMailbox a.mail)
    (hn : ∀ n, a.name = some n → ValidDisplayName n) :
    MailAddress.parseStr a.encode = .ok a ∧
    (∀ m : String, MailAddress.encode ⟨m, none⟩ = m) ∧
    (∀ (s : String) (ml : List Char),
      getaddressesL s.data = [(([] : List Char), ml)] →
      MailAddress.parseStr s = .ok ⟨String.mk ml, none⟩) := by
  refine ⟨?_, fun m => rfl, ?_⟩
  · obtain ⟨mail, name⟩ := a
    obtain ⟨lp, dom, hdata, hlpne, hdomne, hlp, hdom⟩ := hm
    cases name with
    | none =>
      show MailAddress.parseStr mail = .ok ⟨mail, none⟩
      have hg : getaddressesL mail.data =
          [(([] : List Char), lp ++ '@' :: dom)] := by
        rw [hdata]
        exact getaddressesL_bare lp dom hlp hlpne hdom hdomne
      have hmk : String.mk (lp ++ '@' :: dom) = mail := by rw [← hdata]
      simp [MailAddress.parseStr, hg, hmk]
    | some nm =>
      have hdata' : mail.data = lp ++ '@' :: dom := hdata
      obtain ⟨ws, hnd, hwsne, hwords⟩ := hn nm rfl
      have hsjne : spaceJoinL ws ≠ [] :=
        spaceJoinL_ne_nil ws hwsne (fun w hw => (hwords w hw).1)
      have h1 : nm ≠ "" := by
        intro h
        rw [h] at hnd
        exact hsjne hnd.symm
      have h2 : isAsciiStr nm = true := by
        simp only [isAsciiStr, hnd, List.all_eq_true, decide_eq_true_eq]
        intro c hc
        rcases mem_spaceJoinL hc with ⟨w, hw, hcw⟩ | hsp
        · exact isAtomChar_ascii (isNameChar_atom ((hwords w hw).2 c hcw)).1
        · rw [hsp]; decide
      have h3 : nm.data.any (fun c => decide (c ∈ formataddrSpecials)) =
          false := by
        rw [hnd, List.any_eq_false]
        intro c hc
        simp only [decide_eq_true_eq]
        rcases mem_spaceJoinL hc with ⟨w, hw, hcw⟩ | hsp
        · exact isNameChar_not_special ((hwords w hw).2 c hcw)
        · rw [hsp]; decide
      have henc : MailAddress.encode ⟨mail, some nm⟩ =
          nm ++ " <" ++ mail ++ ">" := by
        show formataddr nm mail = _
        simp [formataddr, h1, h2, h3]
      have hdata2 : (nm ++ " <" ++ mail ++ ">").data =
          spaceJoinL ws ++ ' ' :: '<' :: (lp ++ '@' :: (dom ++ ['>'])) := by
        simp [String.data_append, hnd, hdata']
      have hwords2 : ∀ w ∈ ws, w ≠ [] ∧ ∀ c ∈ w, isAddrSpecChar c = true := by
        intro w hw
        refine ⟨(hwords w hw).1, fun c hc => ?_⟩
        have ha := (isNameChar_atom ((hwords w hw).2 c hc)).1
        simp [isAddrSpecChar, ha]
      have hmk1 : String.mk (lp ++ '@' :: dom) = mail := by rw [← hdata']
      have hmk2 : String.mk (spaceJoinL ws) = nm := by rw [← hnd]
      rw [henc]
      unfold MailAddress.parseStr
      rw [hdata2,
        getaddressesL_named ws lp dom hwsne hwords2 hlp hlpne hdom hdomne]
      simp [hsjne, hmk1, hmk2]
  · intro s ml h
    simp [MailAddress.parseStr, h]

theorem parse_encode_roundtrip_witness :
    MailAddress.parseStr
        (MailAddress.encode ⟨"john@example.com", some "John Doe"⟩) =
      .ok ⟨"john@example.com", some "John Doe"⟩ := by
  have h := parse_encode_roundtrip ⟨"john@example.com", some "John Doe"⟩
    ⟨['j', 'o', 'h', 'n'],
     ['e', 'x', 'a', 'm', 'p', 'l', 'e', '.', 'c', 'o', 'm'],
     by decide, by decide, by decide, by decide, by decide⟩
    (by intro n hn
        cases Option.some.inj hn
        exact ⟨[['J', 'o', 'h', 'n'], ['D', 'o', 'e']], by decide, by decide,
          by decide⟩)
  exact h.1
